import Mathlib

/-!
Verification of the etcdb storage and watch engine (rancher/etcdb).

The development shallowly embeds the SQL-backed node store
(`backend` package: `set`, `Delete`, `RmDir`, `CreateInOrder`,
`purgeExpired`, `mkdirs`, `recordChange`, `splitKey`, the condition
types) and the change watcher (`Match`, `isParent`, `addWatch`,
the change ring buffer) as pure Lean functions over an explicit
store state.  Keys are modelled as `List Char` (Go strings are
byte arrays and the code slices them by index); the database
tables are lists of rows; a transaction is a function from the
store to either an error (the transaction rolls back, the caller
keeps the pre-transaction state) or a new store.
-/

namespace Etcdb

/-- A row of the `nodes` table (schema from `tableDefinitions`):
`(key, created, modified, deleted DEFAULT 0, value, expiration, dir,
path_depth, PRIMARY KEY (key, deleted))`.  Timestamps are modelled
as integers. -/
structure NodeRow where
  key : List Char
  created : Int
  modified : Int
  deleted : Int
  value : String
  dir : Bool
  pathDepth : Int
  expiration : Option Int
deriving DecidableEq, Repr

/-- A row of the `changes` table: `(index, key, action, prev_node_modified)`. -/
structure ChangeRow where
  index : Int
  key : List Char
  action : String
  prevNodeModified : Option Int
deriving DecidableEq, Repr

/-- The database state: the `nodes` table, the `changes` table and the
single-row `index` table. -/
structure Store where
  nodes : List NodeRow
  changes : List ChangeRow
  index : Int
deriving DecidableEq, Repr

/-- `models.Node` as scanned by `scanNode`: key, value, created, modified,
dir and expiration (the derived `ttl` column is omitted; nothing in the
backend logic reads it). -/
structure Node where
  key : List Char
  value : String
  createdIndex : Int
  modifiedIndex : Int
  dir : Bool
  expiration : Option Int
deriving DecidableEq, Repr

/-- `scanNode` applied to a node row. -/
def rowToNode (r : NodeRow) : Node :=
  ⟨r.key, r.value, r.created, r.modified, r.dir, r.expiration⟩

/-- The `models` error values produced by the backend.  `cause` strings are
kept verbatim (`CompareFailed` formats `"[expected != actual]"`). -/
inductive EtcdError where
  | notFound (key : List Char) (index : Int)
  | compareFailed (cause : String) (index : Int)
  | notAFile (key : List Char) (index : Int)
  | notADirectory (key : List Char) (index : Int)
  | keyExists (key : List Char) (index : Int)
  | directoryNotEmpty (key : List Char) (index : Int)
  | rootReadOnly (index : Int)
deriving DecidableEq, Repr

/-- `models.CompareFailed(expected, actual, index)`:
cause is `fmt.Sprintf("[%v != %v]", expected, actual)`. -/
def compareFailedE (expected actual : String) (index : Int) : EtcdError :=
  .compareFailed ("[" ++ expected ++ " != " ++ actual ++ "]") index

/-- The `index` field carried by each error value. -/
def EtcdError.errIndex : EtcdError → Int
  | .notFound _ i => i
  | .compareFailed _ i => i
  | .notAFile _ i => i
  | .notADirectory _ i => i
  | .keyExists _ i => i
  | .directoryNotEmpty _ i => i
  | .rootReadOnly i => i

instance {ε α : Type} [DecidableEq ε] [DecidableEq α] :
    DecidableEq (Except ε α)
  | .error e₁, .error e₂ =>
    if h : e₁ = e₂ then .isTrue (by rw [h]) else .isFalse (by simp [h])
  | .error _, .ok _ => .isFalse (by simp)
  | .ok _, .error _ => .isFalse (by simp)
  | .ok a₁, .ok a₂ =>
    if h : a₁ = a₂ then .isTrue (by rw [h]) else .isFalse (by simp [h])

/-- The precondition errors of the claim: `NotFound`, `CompareFailed`,
`KeyExists` (not `NotAFile`, `NotADirectory`, `DirectoryNotEmpty`,
`RootReadOnly`). -/
def EtcdError.isPrecond : EtcdError → Prop
  | .notFound _ _ => True
  | .compareFailed _ _ => True
  | .keyExists _ _ => True
  | _ => False

instance : DecidablePred EtcdError.isPrecond := by
  intro e
  cases e <;> simp only [EtcdError.isPrecond] <;> infer_instance

/-! ### Conditions (`backend/condition.go`) -/

/-- `backend.Condition` / `SetCondition`: the four variants
`Always`, `PrevValue`, `PrevIndex`, `PrevExist`. -/
inductive Cond where
  | always
  | prevValue (s : String)
  | prevIndex (i : Int)
  | prevExist (b : Bool)
deriving DecidableEq, Repr

/-- `Condition.Check(key, index, node)`; `none` means the check passed. -/
def Cond.check : Cond → List Char → Int → Option Node → Option EtcdError
  | .always, _, _, _ => none
  | .prevValue s, key, index, node =>
    match node with
    | none => some (.notFound key index)
    | some n =>
      if n.value ≠ s then some (compareFailedE s n.value index) else none
  | .prevIndex i, key, index, node =>
    match node with
    | none => some (.notFound key index)
    | some n =>
      if n.modifiedIndex ≠ i then
        some (compareFailedE (toString i) (toString n.modifiedIndex) index)
      else none
  | .prevExist b, key, index, node =>
    match node with
    | none => if b then some (.notFound key index) else none
    | some _ => if ¬b then some (.keyExists key index) else none

/-- `SetCondition.SetActionName()`. -/
def Cond.setActionName : Cond → String
  | .always => "set"
  | .prevValue _ => "compareAndSwap"
  | .prevIndex _ => "compareAndSwap"
  | .prevExist b => if b then "update" else "create"

/-- `backend.DeleteCondition`: only `Always`, `PrevValue` and `PrevIndex`
implement `DeleteActionName` (PrevExist does not). -/
inductive DeleteCond where
  | always
  | prevValue (s : String)
  | prevIndex (i : Int)
deriving DecidableEq, Repr

/-- The underlying `Condition` of a `DeleteCondition`. -/
def DeleteCond.toCond : DeleteCond → Cond
  | .always => .always
  | .prevValue s => .prevValue s
  | .prevIndex i => .prevIndex i

/-- `Condition.Check` for a delete condition. -/
def DeleteCond.check (d : DeleteCond) (key : List Char) (index : Int)
    (node : Option Node) : Option EtcdError :=
  d.toCond.check key index node

/-- `DeleteCondition.DeleteActionName()`: note `always` yields `"set"`,
not `"delete"` (source: `func (p always) DeleteActionName() string
{ return "set" }`). -/
def DeleteCond.deleteActionName : DeleteCond → String
  | .always => "set"
  | .prevValue _ => "compareAndDelete"
  | .prevIndex _ => "compareAndDelete"

/-! ### Key helpers -/

/-- `pathDepth(key)`: 0 for the root `/`, else `strings.Count(key, "/")`. -/
def pathDepth (key : List Char) : Int :=
  if key = ['/'] then 0 else (key.count '/' : Int)

/-- SQL `key LIKE k || '/%'`: `key` starts with `k ++ "/"`
(`%` matches zero or more characters). -/
def likeSlash (k key : List Char) : Bool :=
  (k ++ ['/']).isPrefixOf key

/-- The SQL predicate `key = k OR key LIKE k || '/%'` used by `RmDir`
and the expiration sweeper to address a node together with its
descendants. -/
def subtreeMatch (k key : List Char) : Bool :=
  key = k ∨ likeSlash k key

/-- `splitKey(key)`: scan from the end for the last `/` (position `i`);
return `""` if there is none (`i < 0`), `"/"` if it is the first
character (`i == 0`), else `key[:i]`.  The scan from the end is realised
by `dropWhile (· ≠ '/')` on the reversed key. -/
def splitKey (key : List Char) : List Char :=
  match key.reverse.dropWhile (fun c => c ≠ '/') with
  | [] => []
  | [_] => ['/']
  | _ :: rest => rest.reverse

example : splitKey "/a/b/c".toList = "/a/b".toList := by decide
example : splitKey "/foo".toList = "/".toList := by decide
example : splitKey "foo".toList = [] := by decide
example : splitKey ['/'] = ['/'] := by decide
example : splitKey "a/".toList = "a".toList := by decide

/-- The guard of the `mkdirs` loop: the walk stops at `"/"` or `""`. -/
def stopKey (key : List Char) : Prop :=
  key = ['/'] ∨ key = []

instance : DecidablePred stopKey := by
  intro k
  unfold stopKey
  infer_instance

theorem length_dropWhile_le {p : Char → Bool} (l : List Char) :
    (l.dropWhile p).length ≤ l.length := by
  induction l with
  | nil => simp
  | cons a l ih =>
    by_cases h : p a
    · simpa [List.dropWhile, h] using Nat.le_succ_of_le ih
    · simp [List.dropWhile, h]

/-- `splitKey` strictly shortens every key other than `"/"` and `""`:
the termination measure of the `mkdirs` loop. -/
theorem splitKey_length_lt (key : List Char) (h : ¬ stopKey key) :
    (splitKey key).length < key.length := by
  unfold stopKey at h
  push_neg at h
  obtain ⟨hslash, hnil⟩ := h
  have hlen : 0 < key.length := List.length_pos.mpr hnil
  unfold splitKey
  cases hd : key.reverse.dropWhile (fun c => c ≠ '/') with
  | nil => simpa using hlen
  | cons c rest =>
    cases rest with
    | nil =>
      -- the last slash is the first character; result is "/" (length 1)
      -- show key has length ≥ 2: if length = 1, key = [c₀] and the
      -- dropWhile result forces c₀ = '/', i.e. key = "/".
      simp only [List.length_cons, List.length_nil]
      rcases Nat.lt_or_ge 1 key.length with h1 | h1
      · exact h1
      · exfalso
        have hk : key.length = 1 := by omega
        obtain ⟨c₀, hc⟩ := List.length_eq_one.mp hk
        subst hc
        by_cases hc0 : c₀ = '/'
        · exact hslash (by simp [hc0])
        · simp [List.dropWhile, hc0] at hd
    | cons c' rest' =>
      have : (key.reverse.dropWhile (fun c => c ≠ '/')).length ≤ key.length := by
        simpa using length_dropWhile_le key.reverse
      rw [hd] at this
      simp only [List.length_cons] at this
      simp only [List.length_reverse, List.length_cons]
      omega

/-! ### Store primitives -/

/-- `MaxChanges = 1000`: maximum rows to keep in the changes table. -/
def MaxChanges : Int := 1000

/-- `getOne(tx, key)`: `queryNode` is `SELECT ... FROM nodes WHERE
deleted = 0` and `getOne` adds `AND key = $key`; at most one live row
per key exists (primary key `(key, deleted)`). -/
def getOne (s : Store) (key : List Char) : Option Node :=
  (s.nodes.find? (fun r => decide (r.deleted = 0 ∧ r.key = key))).map rowToNode

/-- `insertQuery(key, value, dir, index, ttl)`: the inserted row has
`created = modified = index`, `deleted` defaulting to 0, and
`expiration = now + ttl` when a TTL is given. -/
def insertRow (key : List Char) (value : String) (dir : Bool) (index : Int)
    (ttl : Option Int) (now : Int) : NodeRow :=
  { key := key, created := index, modified := index, deleted := 0,
    value := value, dir := dir, pathDepth := pathDepth key,
    expiration := ttl.map (fun t => now + t) }

/-- `recordChange(tx, index, action, key, prevNode)`: insert the change
row, then `DELETE FROM changes WHERE index < index - MaxChanges`, then
`DELETE FROM nodes WHERE deleted > 0 AND deleted < index - MaxChanges`. -/
def recordChange (s : Store) (index : Int) (action : String)
    (key : List Char) (prevNode : Option Node) : Store :=
  { nodes := s.nodes.filter
      (fun r => decide (¬ (r.deleted > 0 ∧ r.deleted < index - MaxChanges))),
    changes :=
      (s.changes ++ [ChangeRow.mk index key action
          (prevNode.map (·.modifiedIndex))]).filter
        (fun c => decide (¬ c.index < index - MaxChanges)),
    index := s.index }

/-- The `mkdirs` loop, by recursion on a fuel bounding the number of
iterations: at each step, attempt to insert a directory row inside a
savepoint.  A duplicate-key error (a live row already exists for this
key) stops the walk: if the existing row is a directory, `mkdirs`
returns successfully; if it is a leaf, it fails with `NotADirectory`.
Since `splitKey` strictly shortens every path other than `"/"` and
`""`, a fuel of `path.length + 1` is never exhausted. -/
def mkdirsFuel : Nat → Store → List Char → Int → Except EtcdError Store
  | 0, s, _, _ => .ok s
  | fuel + 1, s, path, index =>
    if stopKey path then .ok s
    else
      match s.nodes.find? (fun r => decide (r.key = path ∧ r.deleted = 0)) with
      | some r => if r.dir then .ok s else .error (.notADirectory path index)
      | none =>
        mkdirsFuel fuel
          { s with nodes := s.nodes ++
              [{ key := path, created := index, modified := index, deleted := 0,
                 value := "", dir := true, pathDepth := pathDepth path,
                 expiration := none }] }
          (splitKey path) index

/-- `mkdirs(tx, path, index)`: walk from `path` up to (but excluding)
the root. -/
def mkdirs (s : Store) (path : List Char) (index : Int) :
    Except EtcdError Store :=
  mkdirsFuel (path.length + 1) s path index

/-- The fuel bound of `mkdirs` is irrelevant: any fuel exceeding the
path length computes the same result, so the base case of `mkdirsFuel`
is never reached from `mkdirs`. -/
theorem mkdirsFuel_congr (f₁ f₂ : Nat) (s : Store) (path : List Char)
    (index : Int) (h₁ : path.length < f₁) (h₂ : path.length < f₂) :
    mkdirsFuel f₁ s path index = mkdirsFuel f₂ s path index := by
  induction f₁ generalizing f₂ s path with
  | zero => omega
  | succ f₁ ih =>
    cases f₂ with
    | zero => omega
    | succ f₂ =>
      simp only [mkdirsFuel]
      by_cases hstop : stopKey path
      · rw [if_pos hstop, if_pos hstop]
      · rw [if_neg hstop, if_neg hstop]
        cases s.nodes.find? (fun r => decide (r.key = path ∧ r.deleted = 0)) with
        | some r => rfl
        | none =>
          exact ih _ _ _ (by have := splitKey_length_lt path hstop; omega)
            (by have := splitKey_length_lt path hstop; omega)

/-! ### The expiration sweeper (`purgeExpired`) -/

/-- Insertion into a list sorted by expiration (used to model
`ORDER BY "expiration"`). -/
def insertByExpiration (r : NodeRow) : List NodeRow → List NodeRow
  | [] => [r]
  | x :: xs =>
    if r.expiration.getD 0 ≤ x.expiration.getD 0 then r :: x :: xs
    else x :: insertByExpiration r xs

/-- Sort rows by expiration (`ORDER BY "expiration"`). -/
def sortByExpiration : List NodeRow → List NodeRow
  | [] => []
  | x :: xs => insertByExpiration x (sortByExpiration xs)

/-- `SELECT "key", "modified" FROM "nodes" WHERE "deleted" = 0 AND
"expiration" < now() ORDER BY "expiration"` (a NULL expiration never
compares less than `now`). -/
def expiredNodes (s : Store) (now : Int) : List NodeRow :=
  sortByExpiration (s.nodes.filter
    (fun r => decide (r.deleted = 0 ∧ ∃ e, r.expiration = some e ∧ e < now)))

/-- The body of the `purgeExpired` loop: for each expired node, record an
`expire` change at the running index, tombstone the node and its
descendants (`deleted = 0 AND (key = K OR key LIKE K/%)`) with that
index, and advance the running index.  Returns the final store and the
value of `expirationIndex` after the loop. -/
def purgeLoop (s : Store) (nodes : List NodeRow) (expirationIndex : Int) :
    Store × Int :=
  match nodes with
  | [] => (s, expirationIndex)
  | node :: rest =>
    let s1 := recordChange s expirationIndex "expire" node.key
      (some (rowToNode node))
    let s2 := { s1 with nodes := s1.nodes.map (fun r =>
        if r.deleted = 0 ∧ subtreeMatch node.key r.key then
          { r with deleted := expirationIndex }
        else r) }
    purgeLoop s2 rest (expirationIndex + 1)

/-- `purgeExpired()`: in its own transaction, increment the index to
reserve a slot, select the expired live nodes in expiration order,
process each, and set the global index to the last consumed value.
When nothing has expired the transaction rolls back (`sql.ErrNoRows`)
and the store is unchanged. -/
def purgeExpired (s : Store) (now : Int) : Store :=
  let index := s.index + 1
  let s1 : Store := { s with index := index }
  let nodes := expiredNodes s1 now
  if nodes.isEmpty then s
  else
    let res := purgeLoop s1 nodes index
    { res.1 with index := res.2 - 1 }

/-! ### Node store operations -/

/-- The transaction wrapper shared by the mutating operations: on error
the transaction rolls back and the caller keeps the pre-transaction
store `s0`; on success the committed store is returned. -/
def runTx {α : Type} (s0 : Store) :
    Except EtcdError (Store × α) → Except EtcdError α × Store
  | .error e => (.error e, s0)
  | .ok (s', a) => (.ok a, s')

/-- The body of `set(key, value, dir, ttl, condition)` inside its
transaction: increment the index, read the prior live node, check the
condition against the previous index, reject directories (`NotAFile`),
auto-create parent directories, tombstone the prior live row with
`deleted = index`, insert the new row and record the change. -/
def setTx (s : Store) (now : Int) (key : List Char) (value : String)
    (dir : Bool) (ttl : Option Int) (cond : Cond) :
    Except EtcdError (Store × (Option Node × Option Node)) :=
  let index := s.index + 1
  let s := { s with index := index }
  let prevNode := getOne s key
  let prevIndex := index - 1
  match cond.check key prevIndex prevNode with
  | some e => .error e
  | none =>
    if prevNode.elim false (·.dir) then .error (.notAFile key prevIndex)
    else
      match mkdirs s (splitKey key) index with
      | .error e => .error e
      | .ok s =>
        let s :=
          if prevNode.isSome then
            { s with nodes := s.nodes.map (fun r =>
                if r.deleted = 0 ∧ r.key = key then { r with deleted := index }
                else r) }
          else s
        let s := { s with nodes := s.nodes ++ [insertRow key value dir index ttl now] }
        let node := getOne s key
        let s := recordChange s index cond.setActionName key prevNode
        .ok (s, (node, prevNode))

/-- `set` at the top level: the root is read-only, `Begin()` first runs
the expiration sweeper in its own (committed) transaction, and the
write transaction rolls back on error.  The result pairs the returned
`(node, prevNode)` or error with the resulting store. -/
def setOp (s : Store) (now : Int) (key : List Char) (value : String)
    (dir : Bool) (ttl : Option Int) (cond : Cond) :
    Except EtcdError (Option Node × Option Node) × Store :=
  if key = ['/'] then (.error (.rootReadOnly s.index), s)
  else
    runTx (purgeExpired s now)
      (setTx (purgeExpired s now) now key value dir ttl cond)

/-- `Delete(key, condition)` inside its transaction: increment the index,
read the node, fail `NotFound` / `NotAFile` / the condition with the
previous index, tombstone the live row with `deleted = index` and
record the change under `DeleteActionName`. -/
def deleteTx (s : Store) (key : List Char) (cond : DeleteCond) :
    Except EtcdError (Store × (Node × Int)) :=
  let index := s.index + 1
  let s := { s with index := index }
  match getOne s key with
  | none => .error (.notFound key (index - 1))
  | some node =>
    if node.dir then .error (.notAFile key (index - 1))
    else
      match cond.check key (index - 1) (some node) with
      | some e => .error e
      | none =>
        let s := { s with nodes := s.nodes.map (fun r =>
            if r.key = key ∧ r.deleted = 0 then { r with deleted := index }
            else r) }
        let s := recordChange s index cond.deleteActionName key (some node)
        .ok (s, (node, index))

/-- `Delete` at the top level (root check, sweeper, rollback on error). -/
def deleteOp (s : Store) (now : Int) (key : List Char) (cond : DeleteCond) :
    Except EtcdError (Node × Int) × Store :=
  if key = ['/'] then (.error (.rootReadOnly s.index), s)
  else runTx (purgeExpired s now) (deleteTx (purgeExpired s now) key cond)

/-- `RmDir(key, recursive, condition)` inside its transaction: increment
the index, read the node, fail `NotFound` / the condition with the
previous index, tombstone the node and all live descendants
(`deleted = 0 AND (key = K OR key LIKE K/%)`) with `deleted = index`;
if not recursive and more than one row was affected, fail
`DirectoryNotEmpty` with the previous index (rolling back); otherwise
record a single change row for the directory itself. -/
def rmDirTx (s : Store) (key : List Char) (recursive : Bool)
    (cond : DeleteCond) : Except EtcdError (Store × (Node × Int)) :=
  let index := s.index + 1
  let s := { s with index := index }
  match getOne s key with
  | none => .error (.notFound key (index - 1))
  | some node =>
    match cond.check key (index - 1) (some node) with
    | some e => .error e
    | none =>
      let affected :=
        (s.nodes.filter (fun r => decide (r.deleted = 0 ∧ subtreeMatch key r.key))).length
      let s := { s with nodes := s.nodes.map (fun r =>
          if r.deleted = 0 ∧ subtreeMatch key r.key then { r with deleted := index }
          else r) }
      if ¬recursive ∧ affected > 1 then
        .error (.directoryNotEmpty key (index - 1))
      else
        let s := recordChange s index cond.deleteActionName key (some node)
        .ok (s, (node, index))

/-- `RmDir` at the top level (root check, sweeper, rollback on error). -/
def rmDirOp (s : Store) (now : Int) (key : List Char) (recursive : Bool)
    (cond : DeleteCond) : Except EtcdError (Node × Int) × Store :=
  if key = ['/'] then (.error (.rootReadOnly s.index), s)
  else
    runTx (purgeExpired s now)
      (rmDirTx (purgeExpired s now) key recursive cond)

/-- `CreateInOrder(key, value, ttl)`: increment the index, insert a new
node at `key + "/" + index` (decimal), record a `create` change. -/
def createInOrderOp (s : Store) (now : Int) (key : List Char)
    (value : String) (ttl : Option Int) : Option Node × Store :=
  let s0 := purgeExpired s now
  let index := s0.index + 1
  let s1 : Store := { s0 with index := index }
  let key := key ++ '/' :: (toString index).toList
  let s2 := { s1 with nodes := s1.nodes ++ [insertRow key value false index ttl now] }
  let node := getOne s2 key
  let s3 := recordChange s2 index "create" key none
  (node, s3)

/-! ### The change watcher (`backend/sql.go`: `Match`, `isParent`,
`changeList`, `addWatch`) -/

/-- A buffered change as held by the watcher ring
(`type change struct { Index; Key; Action; PrevNodeModified }`). -/
structure WChange where
  index : Int
  key : List Char
  action : String
  prevNodeModified : Option Int
deriving DecidableEq, Repr

/-- A watch subscription (`type watch struct { Index; Key; Recursive }`). -/
structure Watch where
  index : Int
  key : List Char
  recursive : Bool
deriving DecidableEq, Repr

/-- Go string slicing `b[:n]`: defined only when `n ≤ len(b)`;
otherwise the program panics with a slice-bounds error, modelled as
`none`. -/
def goSliceTo (b : List Char) (n : Nat) : Option (List Char) :=
  if n ≤ b.length then some (b.take n) else none

/-- `isParent(a, b) = (b[:len(a)+1] == a + "/")`.  The slice panics
(`none`) whenever `len(b) < len(a) + 1`. -/
def isParent (a b : List Char) : Option Bool :=
  (goSliceTo b (a.length + 1)).map (fun pre => decide (pre = a ++ ['/']))

/-- The final `switch` of `watch.Match`: for `delete`/`expire` actions
return `isParent(c.Key, w.Key)`; otherwise false. -/
def watchTail (w : Watch) (c : WChange) : Option Bool :=
  if c.action = "delete" ∨ c.action = "expire" then isParent c.key w.key
  else some false

/-- `watch.Match(c)`, with panics propagated as `none`:
return false if `c.Index < w.Index`; true if the keys are equal; true if
recursive and `isParent(w.Key, c.Key)` (falling through to the action
`switch` when that test is false); otherwise the action `switch`. -/
def watchMatch (w : Watch) (c : WChange) : Option Bool :=
  if c.index < w.index then some false
  else if c.key = w.key then some true
  else if w.recursive then
    match isParent w.key c.key with
    | none => none
    | some true => some true
    | some false => watchTail w c
  else watchTail w c

/-- The subscription-matching predicate in the words of the
specification: the change is admitted by the wait index, and its key
equals the watch key, or the watch is recursive and the change key
starts with `watch.key + "/"`, or the change is a `delete`/`expire` on
an ancestor directory of the watch key (regardless of `recursive`). -/
def specWatchMatches (w : Watch) (c : WChange) : Prop :=
  w.index ≤ c.index ∧
    (c.key = w.key ∨
      (w.recursive = true ∧ (w.key ++ ['/']) <+: c.key) ∨
      ((c.action = "delete" ∨ c.action = "expire") ∧
        (c.key ++ ['/']) <+: w.key))

instance (w : Watch) (c : WChange) : Decidable (specWatchMatches w c) := by
  unfold specWatchMatches
  infer_instance

/-- The watcher's ring buffer (`changeList`): a circular buffer of
capacity `Capacity` over the backing slice `changes`, starting at
logical position `Begin` with `Size` elements. -/
structure ChangeList where
  capacity : Nat
  changes : List WChange
  start : Nat
  size : Nat
deriving DecidableEq, Repr

/-- `changeList.Item(i) = &cl.changes[(cl.Begin+i) % cl.Capacity]`. -/
def ChangeList.item (cl : ChangeList) (i : Nat) : WChange :=
  cl.changes.getD ((cl.start + i) % cl.capacity) ⟨0, [], "", none⟩

/-- `changeList.First() = cl.Item(0)`. -/
def ChangeList.first (cl : ChangeList) : WChange := cl.item 0

/-- The state owned by the watcher task: the ring, `lastIndex`, and the
pending subscription set (modelled as a list). -/
structure WatcherState where
  changes : ChangeList
  lastIndex : Int
  watches : List Watch
deriving DecidableEq, Repr

/-- How a submitted subscription is disposed of by `addWatch`. -/
inductive WatchOutcome where
  | outOfBounds
  | pending
  | clearedAtAdd (firstIndex waitIndex currentIndex : Int)
  | resolved (i : Nat)
deriving DecidableEq, Repr

/-- `checkChange(c, w)` with the change materialization (`c.Value`,
a database lookup) abstracted by `materialize : WChange → Bool`
(whether the referenced node rows are still present): no match keeps
the watch (`some false`); a match whose value was cleared while
`w.Index == 0` also keeps it; any other match resolves and removes the
watch (`some true`).  `none` models the panic inside `Match`. -/
def checkChange (materialize : WChange → Bool) (c : WChange) (w : Watch) :
    Option Bool :=
  match watchMatch w c with
  | none => none
  | some false => some false
  | some true =>
    if ¬ materialize c ∧ w.index = 0 then some false else some true

/-- The scan loop of `addWatch`: `for i := 0; i < cw.changes.Size; i++
{ if cw.checkChange(cw.changes.Item(i), w) { break } }`. -/
def addWatchScan (materialize : WChange → Bool) (cw : WatcherState)
    (w : Watch) (i : Nat) : WatcherState × WatchOutcome :=
  if h : i < cw.changes.size then
    match checkChange materialize (cw.changes.item i) w with
    | none => (cw, .outOfBounds)
    | some true =>
      ({ cw with watches := cw.watches.filter (fun x => decide (x ≠ w)) },
        .resolved i)
    | some false => addWatchScan materialize cw w (i + 1)
  else (cw, .pending)
termination_by cw.changes.size - i

/-- `addWatch(w)`: register the watch; return immediately when
`w.Index <= 0` or the ring is empty; if `w.Index` precedes the ring's
`First().Index`, resolve at once with
`EventIndexCleared(oldestIndex, w.Index, cw.lastIndex)` and remove the
watch; otherwise scan the ring from oldest to newest. -/
def addWatch (materialize : WChange → Bool) (cw : WatcherState)
    (w : Watch) : WatcherState × WatchOutcome :=
  if w.index ≤ 0 ∨ cw.changes.size = 0 then
    ({ cw with watches := cw.watches ++ [w] }, .pending)
  else if w.index < cw.changes.first.index then
    ({ cw with watches := (cw.watches ++ [w]).filter (fun x => decide (x ≠ w)) },
      .clearedAtAdd cw.changes.first.index w.index cw.lastIndex)
  else addWatchScan materialize { cw with watches := cw.watches ++ [w] } w 0

/-! ### The delete dispatcher (`restapi/operations/delete_node.go`) -/

/-- The response envelope built by `DeleteNode.Call`: the action name is
`condition.DeleteActionName()`, the node carries the request key, the
deleted node's `createdIndex` and the new index, and `prevNode` is the
deleted node. -/
structure ActionUpdateEnv where
  action : String
  nodeKey : List Char
  nodeCreatedIndex : Int
  nodeModifiedIndex : Int
  prevNode : Node
deriving DecidableEq, Repr

/-- The condition chosen by `DeleteNode.Call` from its `prevValue` /
`prevIndex` request parameters (defaulting to `Always`). -/
def deleteCondOfParams (prevValue : Option String) (prevIndex : Option Int) :
    DeleteCond :=
  match prevValue, prevIndex with
  | some v, _ => .prevValue v
  | none, some i => .prevIndex i
  | none, none => .always

/-- `DeleteNode.Call()`: choose the condition from the `prevValue` /
`prevIndex` parameters (defaulting to `Always`), dispatch to `RmDir`
when `dir` or `recursive` is set and to `Delete` otherwise, and wrap
the result in the response envelope. -/
def deleteNodeCall (s : Store) (now : Int) (key : List Char)
    (prevValue : Option String) (prevIndex : Option Int)
    (dirFlag recursive : Bool) :
    Except EtcdError ActionUpdateEnv × Store :=
  let condition : DeleteCond := deleteCondOfParams prevValue prevIndex
  let res :=
    if dirFlag ∨ recursive then rmDirOp s now key recursive condition
    else deleteOp s now key condition
  match res with
  | (.error e, s') => (.error e, s')
  | (.ok (node, index), s') =>
    (.ok { action := condition.deleteActionName, nodeKey := key,
           nodeCreatedIndex := node.createdIndex, nodeModifiedIndex := index,
           prevNode := node }, s')

/-! ### Helper lemmas -/

theorem setOp_eq (s : Store) (now : Int) (key : List Char) (value : String)
    (dir : Bool) (ttl : Option Int) (cond : Cond) (h : key ≠ ['/']) :
    setOp s now key value dir ttl cond =
      runTx (purgeExpired s now)
        (setTx (purgeExpired s now) now key value dir ttl cond) := by
  unfold setOp
  rw [if_neg h]

theorem deleteOp_eq (s : Store) (now : Int) (key : List Char)
    (cond : DeleteCond) (h : key ≠ ['/']) :
    deleteOp s now key cond =
      runTx (purgeExpired s now)
        (deleteTx (purgeExpired s now) key cond) := by
  unfold deleteOp
  rw [if_neg h]

theorem rmDirOp_eq (s : Store) (now : Int) (key : List Char)
    (recursive : Bool) (cond : DeleteCond) (h : key ≠ ['/']) :
    rmDirOp s now key recursive cond =
      runTx (purgeExpired s now)
        (rmDirTx (purgeExpired s now) key recursive cond) := by
  unfold rmDirOp
  rw [if_neg h]

theorem runTx_error {α : Type} (s0 : Store) (e : EtcdError) :
    runTx (α := α) s0 (.error e) = (.error e, s0) := rfl

theorem runTx_ok {α : Type} (s0 s' : Store) (a : α) :
    runTx s0 (.ok (s', a)) = (.ok a, s') := rfl

theorem dropWhile_append_of_all {p : Char → Bool} (l₁ l₂ : List Char)
    (h : ∀ x ∈ l₁, p x) : (l₁ ++ l₂).dropWhile p = l₂.dropWhile p := by
  induction l₁ with
  | nil => simp
  | cons a l ih =>
    have ha : p a := h a (by simp)
    simp only [List.cons_append, List.dropWhile_cons, ha, if_true]
    exact ih (fun x hx => h x (by simp [hx]))

theorem splitKey_of_no_slash (key : List Char) (h : '/' ∉ key) :
    splitKey key = [] := by
  unfold splitKey
  have : key.reverse.dropWhile (fun c => c ≠ '/') = [] := by
    rw [List.dropWhile_eq_nil_iff]
    intro x hx
    have hne : x ≠ '/' := fun hx' => h (hx' ▸ List.mem_reverse.mp hx)
    simp [hne]
  rw [this]

theorem splitKey_top_level (rest : List Char) (h : '/' ∉ rest) :
    splitKey ('/' :: rest) = ['/'] := by
  unfold splitKey
  have hrev : ('/' :: rest).reverse = rest.reverse ++ ['/'] := by simp
  have hall : ∀ x ∈ rest.reverse, (fun c => decide (c ≠ '/')) x = true := by
    intro x hx
    simp only [ne_eq, decide_eq_true_eq]
    intro hx'
    exact h (by simpa [hx'] using List.mem_reverse.mp hx)
  rw [hrev, dropWhile_append_of_all _ _ hall]
  simp [List.dropWhile]

/-- Iterating `splitKey` reaches a stopping value (`"/"` or `""`) in at
most `key.length` steps. -/
theorem splitKey_reaches_stop (key : List Char) :
    ∃ n, n ≤ key.length ∧ stopKey (splitKey^[n] key) := by
  by_cases h : stopKey key
  · exact ⟨0, Nat.zero_le _, h⟩
  · have hlt := splitKey_length_lt key h
    obtain ⟨n, hn, hs⟩ := splitKey_reaches_stop (splitKey key)
    exact ⟨n + 1, by omega, by rwa [Function.iterate_succ_apply]⟩
termination_by key.length
decreasing_by exact hlt

/-- C10: For every starting path, the parent-directory creation loop in
`mkdirs` terminates: `splitKey` applied to any path other than `"/"`
and `""` returns a strictly shorter string — the prefix ending before
the last `/`, with `""` for paths containing no `/` and `"/"` for
top-level keys — so the descending sequence of paths reaches one of the
loop's stopping values `"/"` or `""` in at most `key.length` steps. -/
theorem spec_C10 (key : List Char) (h : ¬ stopKey key) :
    (splitKey key).length < key.length ∧
    ('/' ∉ key → splitKey key = []) ∧
    (∀ rest, key = '/' :: rest → '/' ∉ rest → splitKey key = ['/']) ∧
    (∃ n, n ≤ key.length ∧ stopKey (splitKey^[n] key)) := by
  refine ⟨splitKey_length_lt key h, splitKey_of_no_slash key, ?_,
    splitKey_reaches_stop key⟩
  intro rest hkey hrest
  rw [hkey]
  exact splitKey_top_level rest hrest

theorem spec_C10_witness :
    ¬ stopKey "/a/b".toList ∧
    ((splitKey "/a/b".toList).length < "/a/b".toList.length ∧
      ('/' ∉ "/a/b".toList → splitKey "/a/b".toList = []) ∧
      (∀ rest, "/a/b".toList = '/' :: rest → '/' ∉ rest →
        splitKey "/a/b".toList = ['/']) ∧
      (∃ n, n ≤ "/a/b".toList.length ∧ stopKey (splitKey^[n] "/a/b".toList))) :=
  ⟨by decide, spec_C10 "/a/b".toList (by decide)⟩

/-- C9 counterexample: the claim states the prefix test inside
`isParent(a, b)` is only evaluated when `len(b) ≥ len(a) + 1`; but for
a recursive watch on `/foo` and a change on `/f` (index admitted, keys
unequal, action `set`), `Match` evaluates `isParent("/foo", "/f")`,
which slices `"/f"[:5]` out of bounds (modelled as `none`). -/
theorem spec_C9_counterexample :
    watchMatch ⟨0, "/foo".toList, true⟩ ⟨1, "/f".toList, "set", none⟩ = none ∧
    "/f".toList.length < "/foo".toList.length + 1 := by decide

/-- C9 (amended): evaluating `Match` accesses a string index out of
bounds (`none`) exactly when the change passes the index and
key-equality guards and either the watch is recursive with a change key
no longer than the watch key, or the recursive prefix test was passed
in bounds without matching (or the watch is non-recursive), the action
is `delete`/`expire`, and the watch key is no longer than the change
key.  In particular such evaluations do occur, so the bound
`len(b) ≥ len(a) + 1` is not maintained. -/
theorem isParent_none_iff (a b : List Char) :
    isParent a b = none ↔ b.length < a.length + 1 := by
  unfold isParent goSliceTo
  by_cases h : a.length + 1 ≤ b.length <;> simp [h] <;> omega

theorem isParent_some_true_iff (a b : List Char) :
    isParent a b = some true ↔
      a.length + 1 ≤ b.length ∧ b.take (a.length + 1) = a ++ ['/'] := by
  unfold isParent goSliceTo
  by_cases h : a.length + 1 ≤ b.length <;> simp [h] <;> omega

theorem isParent_some_false_iff (a b : List Char) :
    isParent a b = some false ↔
      a.length + 1 ≤ b.length ∧ b.take (a.length + 1) ≠ a ++ ['/'] := by
  unfold isParent goSliceTo
  by_cases h : a.length + 1 ≤ b.length <;> simp [h] <;> omega

theorem watchTail_none_iff (w : Watch) (c : WChange) :
    watchTail w c = none ↔
      (c.action = "delete" ∨ c.action = "expire") ∧
        w.key.length ≤ c.key.length := by
  unfold watchTail
  by_cases hact : c.action = "delete" ∨ c.action = "expire"
  · rw [if_pos hact, isParent_none_iff]
    constructor
    · intro h; exact ⟨hact, by omega⟩
    · rintro ⟨-, h⟩; omega
  · rw [if_neg hact]
    constructor
    · intro h; exact absurd h (by simp)
    · rintro ⟨h, -⟩; exact absurd h hact

theorem spec_C9 (w : Watch) (c : WChange) :
    watchMatch w c = none ↔
      (w.index ≤ c.index ∧ c.key ≠ w.key ∧
        ((w.recursive = true ∧ c.key.length ≤ w.key.length) ∨
          ((w.recursive = true →
              (w.key.length < c.key.length ∧
                c.key.take (w.key.length + 1) ≠ w.key ++ ['/'])) ∧
            (c.action = "delete" ∨ c.action = "expire") ∧
            w.key.length ≤ c.key.length))) := by
  constructor
  · intro h
    unfold watchMatch at h
    by_cases h1 : c.index < w.index
    · rw [if_pos h1] at h; exact absurd h (by simp)
    · rw [if_neg h1] at h
      by_cases h2 : c.key = w.key
      · rw [if_pos h2] at h; exact absurd h (by simp)
      · rw [if_neg h2] at h
        refine ⟨by omega, h2, ?_⟩
        by_cases hrec : w.recursive = true
        · rw [if_pos hrec] at h
          rcases hip : isParent w.key c.key with _ | b
          · left
            have := (isParent_none_iff _ _).mp hip
            exact ⟨hrec, by omega⟩
          · rw [hip] at h
            cases b with
            | true => exact absurd h (by simp)
            | false =>
              right
              obtain ⟨hlen, hneq⟩ := (isParent_some_false_iff _ _).mp hip
              obtain ⟨hact, hlen2⟩ := (watchTail_none_iff _ _).mp h
              exact ⟨fun _ => ⟨by omega, hneq⟩, hact, hlen2⟩
        · rw [if_neg hrec] at h
          obtain ⟨hact, hlen2⟩ := (watchTail_none_iff _ _).mp h
          exact .inr ⟨fun hr => absurd hr hrec, hact, hlen2⟩
  · rintro ⟨hidx, hne, hC⟩
    unfold watchMatch
    rw [if_neg (not_lt.mpr hidx), if_neg hne]
    rcases hC with ⟨hrec, hlen⟩ | ⟨himp, hact, hlen2⟩
    · rw [if_pos hrec, (isParent_none_iff _ _).mpr (by omega)]
    · by_cases hrec : w.recursive = true
      · obtain ⟨hlt, hneq⟩ := himp hrec
        rw [if_pos hrec,
          (isParent_some_false_iff w.key c.key).mpr ⟨by omega, hneq⟩]
        exact (watchTail_none_iff _ _).mpr ⟨hact, hlen2⟩
      · rw [if_neg hrec]
        exact (watchTail_none_iff _ _).mpr ⟨hact, hlen2⟩

/-- C4: the claim states the match predicate is an if-and-only-if, with
the `delete`/`expire` ancestor rule applying regardless of `recursive`.
The specification is clearly the intent (watchers must see their
subtree being removed from above), but the code diverges: for a
recursive watch on `/a/b` and a `delete` change on `/a` — which the
claim says matches — `Match` first evaluates `isParent("/a/b", "/a")`,
slicing `"/a"[:5]` out of bounds, a runtime panic (`none`), instead of
returning a match. -/
theorem spec_C4 :
    specWatchMatches ⟨1, "/a/b".toList, true⟩ ⟨1, "/a".toList, "delete", none⟩ ∧
    watchMatch ⟨1, "/a/b".toList, true⟩ ⟨1, "/a".toList, "delete", none⟩ = none := by
  decide

/-- C8: a subscription with `waitIndex > 0` submitted while the ring
buffer is non-empty, with `waitIndex` strictly below the oldest
buffered change's index, is resolved immediately with
`EventIndexCleared(oldest_buffered_index, waitIndex, lastIndex)` and is
removed from the pending set without matching any change (the ring is
never scanned). -/
theorem spec_C8 (materialize : WChange → Bool) (cw : WatcherState)
    (w : Watch) (h1 : 0 < w.index) (h2 : cw.changes.size ≠ 0)
    (h3 : w.index < cw.changes.first.index) :
    addWatch materialize cw w =
      ({ cw with watches := (cw.watches ++ [w]).filter (fun x => decide (x ≠ w)) },
        .clearedAtAdd cw.changes.first.index w.index cw.lastIndex) ∧
    w ∉ (addWatch materialize cw w).1.watches := by
  have hA : ¬(w.index ≤ 0 ∨ cw.changes.size = 0) := by
    push_neg
    exact ⟨by omega, h2⟩
  have heq : addWatch materialize cw w =
      ({ cw with watches := (cw.watches ++ [w]).filter (fun x => decide (x ≠ w)) },
        .clearedAtAdd cw.changes.first.index w.index cw.lastIndex) := by
    unfold addWatch
    rw [if_neg hA, if_pos h3]
  refine ⟨heq, ?_⟩
  rw [heq]
  intro hmem
  have := (List.mem_filter.mp hmem).2
  simp at this

/-- Data for the C8 witness: a one-slot ring holding a change at
index 5, watcher `lastIndex` 5, no pending watches. -/
def c8watcher : WatcherState :=
  ⟨⟨1, [⟨5, ['/', 'a'], "set", none⟩], 0, 1⟩, 5, []⟩

/-- The C8 witness subscription: `waitIndex` 2, below the oldest
buffered index 5. -/
def c8watch : Watch := ⟨2, ['/', 'a'], false⟩

theorem spec_C8_witness :
    addWatch (fun _ => true) c8watcher c8watch =
      ({ c8watcher with
          watches := (c8watcher.watches ++ [c8watch]).filter (fun x => decide (x ≠ c8watch)) },
        .clearedAtAdd c8watcher.changes.first.index c8watch.index
          c8watcher.lastIndex) ∧
    c8watch ∉ (addWatch (fun _ => true) c8watcher c8watch).1.watches :=
  spec_C8 (fun _ => true) c8watcher c8watch (by decide) (by decide) (by decide)

/-! ### C6: the action name of unconditional deletes -/

/-- The freshly inserted change row always survives the pruning inside
`recordChange`. -/
theorem recordChange_new_mem (s : Store) (index : Int) (action : String)
    (key : List Char) (prevNode : Option Node) :
    ChangeRow.mk index key action (prevNode.map (·.modifiedIndex)) ∈
      (recordChange s index action key prevNode).changes := by
  unfold recordChange
  refine List.mem_filter.mpr ⟨List.mem_append_right _ (by simp), ?_⟩
  simp only [decide_eq_true_eq, MaxChanges]
  omega

/-- A successful `deleteTx` produces the index `s.index + 1` and records
the change row `(index, key, DeleteActionName, node.modifiedIndex)`. -/
theorem deleteTx_ok (s : Store) (key : List Char) (cond : DeleteCond)
    (s' : Store) (node : Node) (idx : Int)
    (h : deleteTx s key cond = .ok (s', (node, idx))) :
    idx = s.index + 1 ∧
    ChangeRow.mk idx key cond.deleteActionName (some node.modifiedIndex) ∈
      s'.changes := by
  dsimp only [deleteTx] at h
  split at h
  · exact absurd h (by simp)
  · rename_i node' hget
    split at h
    · exact absurd h (by simp)
    · split at h
      · exact absurd h (by simp)
      · simp only [Except.ok.injEq, Prod.mk.injEq] at h
        obtain ⟨h1, h2, h3⟩ := h
        refine ⟨h3.symm, ?_⟩
        rw [← h1, ← h2, ← h3]
        simpa using
          recordChange_new_mem _ (s.index + 1) cond.deleteActionName key (some node')

/-- C6 counterexample: on a store holding the live leaf `/k`, the
unconditional `Delete("/k", Always)` succeeds but records a change row
whose action is `"set"`, not `"delete"` (and the `DeleteNode` response
envelope carries the same `"set"` action), because
`always.DeleteActionName()` returns `"set"`. -/
theorem spec_C6_counterexample :
    (deleteOp ⟨[⟨['/', 'k'], 1, 1, 0, "v", false, 1, none⟩], [], 1⟩ 0
        ['/', 'k'] .always).2.changes.map (·.action) = ["set"] ∧
    (deleteNodeCall ⟨[⟨['/', 'k'], 1, 1, 0, "v", false, 1, none⟩], [], 1⟩ 0
        ['/', 'k'] none none false false).1 =
      .ok ⟨"set", ['/', 'k'], 1, 2, ⟨['/', 'k'], "v", 1, 1, false, none⟩⟩ ∧
    "set" ≠ "delete" := by decide

/-- C6 (amended): every successful `Delete` records a change row whose
action is `condition.DeleteActionName()`, which is `"set"` for the
unconditional `Always` condition (not `"delete"`) and
`"compareAndDelete"` for `PrevValue` / `PrevIndex`; the `DeleteNode`
response envelope carries the same name. -/
theorem spec_C6 (s : Store) (now : Int) (key : List Char)
    (cond : DeleteCond) (n : Node) (i : Int)
    (h : (deleteOp s now key cond).1 = .ok (n, i)) :
    ChangeRow.mk i key cond.deleteActionName (some n.modifiedIndex) ∈
      (deleteOp s now key cond).2.changes ∧
    DeleteCond.deleteActionName .always = "set" ∧
    (∀ v, (DeleteCond.prevValue v).deleteActionName = "compareAndDelete") ∧
    (∀ j, (DeleteCond.prevIndex j).deleteActionName = "compareAndDelete") ∧
    (∀ pv pi dfl rc env s',
      deleteNodeCall s now key pv pi dfl rc = (.ok env, s') →
      env.action = (deleteCondOfParams pv pi).deleteActionName) := by
  refine ⟨?_, rfl, fun _ => rfl, fun _ => rfl, ?_⟩
  · by_cases hroot : key = ['/']
    · rw [deleteOp] at h
      rw [if_pos hroot] at h
      exact absurd h (by simp)
    · rw [deleteOp_eq s now key cond hroot] at h ⊢
      rcases hd : deleteTx (purgeExpired s now) key cond with e | ⟨s', node, idx⟩
      · simp only [hd, runTx_error] at h
        exact absurd h (by simp)
      · simp only [hd, runTx_ok, Except.ok.injEq, Prod.mk.injEq] at h ⊢
        obtain ⟨hnode, hidx⟩ := h
        subst hnode hidx
        exact (deleteTx_ok _ _ _ _ _ _ hd).2
  · intro pv pi dfl rc env s' henv
    dsimp only [deleteNodeCall] at henv
    split at henv
    · rename_i e s₂ heq
      simp only [Prod.mk.injEq] at henv
      exact absurd henv.1 (by simp)
    · rename_i node index s₂ heq
      simp only [Prod.mk.injEq, Except.ok.injEq] at henv
      rw [← henv.1]

theorem spec_C6_witness :
    ChangeRow.mk 2 ['/', 'k'] DeleteCond.always.deleteActionName (some 1) ∈
      (deleteOp ⟨[⟨['/', 'k'], 1, 1, 0, "v", false, 1, none⟩], [], 1⟩ 0
        ['/', 'k'] .always).2.changes ∧
    DeleteCond.deleteActionName .always = "set" :=
  have h := spec_C6 ⟨[⟨['/', 'k'], 1, 1, 0, "v", false, 1, none⟩], [], 1⟩ 0
    ['/', 'k'] .always ⟨['/', 'k'], "v", 1, 1, false, none⟩ 2 (by decide)
  ⟨h.1, h.2.1⟩

/-! ### C1: precondition errors carry the previous index and roll back -/

/-- Every error produced by `Condition.Check` carries the index it was
given. -/
theorem cond_check_errIndex (c : Cond) (key : List Char) (i : Int)
    (node : Option Node) (e : EtcdError) (h : c.check key i node = some e) :
    e.errIndex = i := by
  cases c with
  | always => exact absurd h (by simp [Cond.check])
  | prevValue v =>
    cases node with
    | none =>
      simp only [Cond.check] at h
      injection h with h; subst h; rfl
    | some n =>
      simp only [Cond.check] at h
      split at h
      · injection h with h; subst h; rfl
      · exact absurd h (by simp)
  | prevIndex j =>
    cases node with
    | none =>
      simp only [Cond.check] at h
      injection h with h; subst h; rfl
    | some n =>
      simp only [Cond.check] at h
      split at h
      · injection h with h; subst h; rfl
      · exact absurd h (by simp)
  | prevExist b =>
    cases node with
    | none =>
      simp only [Cond.check] at h
      split at h
      · injection h with h; subst h; rfl
      · exact absurd h (by simp)
    | some n =>
      simp only [Cond.check] at h
      split at h
      · injection h with h; subst h; rfl
      · exact absurd h (by simp)

theorem mkdirsFuel_error_shape (fuel : Nat) (s : Store) (path : List Char)
    (i : Int) (e : EtcdError) (h : mkdirsFuel fuel s path i = .error e) :
    ∃ p, e = .notADirectory p i := by
  induction fuel generalizing s path with
  | zero => exact absurd h (by simp [mkdirsFuel])
  | succ fuel ih =>
    simp only [mkdirsFuel] at h
    split at h
    · exact absurd h (by simp)
    · split at h
      · split at h
        · exact absurd h (by simp)
        · injection h with h
          exact ⟨path, h.symm⟩
      · exact ih _ _ h

/-- The only error `mkdirs` can produce is `NotADirectory` carrying the
new (already incremented) index. -/
theorem mkdirs_error_shape (s : Store) (path : List Char) (i : Int)
    (e : EtcdError) (h : mkdirs s path i = .error e) :
    ∃ p, e = .notADirectory p i :=
  mkdirsFuel_error_shape _ _ _ _ _ h

/-- A failing `setTx` whose error is a precondition error (`NotFound`,
`CompareFailed`, `KeyExists`) carries the pre-transaction index: the
check runs after the increment, against `index - 1`. -/
theorem setTx_error (s : Store) (now : Int) (key : List Char)
    (value : String) (dir : Bool) (ttl : Option Int) (cond : Cond)
    (e : EtcdError) (h : setTx s now key value dir ttl cond = .error e)
    (hp : e.isPrecond) : e.errIndex = s.index := by
  dsimp only [setTx] at h
  split at h
  · rename_i heq
    injection h with h
    subst h
    have := cond_check_errIndex _ _ _ _ _ heq
    rw [this]
    omega
  · split at h
    · injection h with h
      subst h
      exact hp.elim
    · split at h
      · rename_i heq
        injection h with h
        subst h
        obtain ⟨p, hp'⟩ := mkdirs_error_shape _ _ _ _ heq
        subst hp'
        exact hp.elim
      · exact absurd h (by simp)

/-- Every error produced by `deleteTx` carries the pre-transaction
index. -/
theorem deleteTx_error (s : Store) (key : List Char) (cond : DeleteCond)
    (e : EtcdError) (h : deleteTx s key cond = .error e) :
    e.errIndex = s.index := by
  dsimp only [deleteTx] at h
  split at h
  · injection h with h
    subst h
    simp only [EtcdError.errIndex]
    omega
  · split at h
    · injection h with h
      subst h
      simp only [EtcdError.errIndex]
      omega
    · split at h
      · rename_i heq
        injection h with h
        subst h
        unfold DeleteCond.check at heq
        have := cond_check_errIndex _ _ _ _ _ heq
        rw [this]
        omega
      · exact absurd h (by simp)

/-- Every error produced by `rmDirTx` carries the pre-transaction
index. -/
theorem rmDirTx_error (s : Store) (key : List Char) (recursive : Bool)
    (cond : DeleteCond) (e : EtcdError)
    (h : rmDirTx s key recursive cond = .error e) :
    e.errIndex = s.index := by
  dsimp only [rmDirTx] at h
  split at h
  · injection h with h
    subst h
    simp only [EtcdError.errIndex]
    omega
  · split at h
    · rename_i heq
      injection h with h
      subst h
      unfold DeleteCond.check at heq
      have := cond_check_errIndex _ _ _ _ _ heq
      rw [this]
      omega
    · split at h
      · injection h with h
        subst h
        simp only [EtcdError.errIndex]
        omega
      · exact absurd h (by simp)

/-- The store after the first step of the C1 scenario:
`Set("/k", "v1")` on an empty store. -/
def c1store : Store :=
  (setOp ⟨[], [], 0⟩ 0 ['/', 'k'] "v1" false none .always).2

/-- C1: for every mutating operation, the precondition is checked after
the index increment; a resulting precondition error (`NotFound`,
`CompareFailed`, `KeyExists`) carries the previous index `new − 1`, and
the transaction rolls back, leaving nodes, changes and the global index
unchanged.  Concretely, after `Set("/k","v1")`,
`Set("/k","v2",PrevValue("wrong"))` fails `CompareFailed` with cause
`"[wrong != v1]"` and index 1, the stored value stays `"v1"`, and the
global index stays 1. -/
theorem spec_C1 :
    (∀ s now key value dir ttl cond e,
      key ≠ ['/'] → purgeExpired s now = s →
      (setOp s now key value dir ttl cond).1 = .error e → e.isPrecond →
      e.errIndex = (s.index + 1) - 1 ∧
        (setOp s now key value dir ttl cond).2 = s) ∧
    (∀ s now key cond e,
      key ≠ ['/'] → purgeExpired s now = s →
      (deleteOp s now key cond).1 = .error e → e.isPrecond →
      e.errIndex = (s.index + 1) - 1 ∧ (deleteOp s now key cond).2 = s) ∧
    (∀ s now key recursive cond e,
      key ≠ ['/'] → purgeExpired s now = s →
      (rmDirOp s now key recursive cond).1 = .error e → e.isPrecond →
      e.errIndex = (s.index + 1) - 1 ∧
        (rmDirOp s now key recursive cond).2 = s) ∧
    ((setOp ⟨[], [], 0⟩ 0 ['/', 'k'] "v1" false none .always).1 =
        .ok (some ⟨['/', 'k'], "v1", 1, 1, false, none⟩, none) ∧
      setOp c1store 0 ['/', 'k'] "v2" false none (.prevValue "wrong") =
        (.error (.compareFailed "[wrong != v1]" 1), c1store) ∧
      getOne c1store ['/', 'k'] = some ⟨['/', 'k'], "v1", 1, 1, false, none⟩ ∧
      c1store.index = 1) := by
  refine ⟨?_, ?_, ?_, by decide⟩
  · intro s now key value dir ttl cond e hroot hpur h hp
    rw [setOp_eq _ _ _ _ _ _ _ hroot, hpur] at h ⊢
    rcases hs : setTx s now key value dir ttl cond with e' | ⟨s'', a⟩
    · simp only [hs, runTx_error] at h ⊢
      injection h with h
      subst h
      exact ⟨by rw [setTx_error _ _ _ _ _ _ _ _ hs hp]; omega, by trivial⟩
    · simp only [hs, runTx_ok] at h
      exact absurd h (by simp)
  · intro s now key cond e hroot hpur h hp
    rw [deleteOp_eq _ _ _ _ hroot, hpur] at h ⊢
    rcases hs : deleteTx s key cond with e' | ⟨s'', a⟩
    · simp only [hs, runTx_error] at h ⊢
      injection h with h
      subst h
      exact ⟨by rw [deleteTx_error _ _ _ _ hs]; omega, by trivial⟩
    · simp only [hs, runTx_ok] at h
      exact absurd h (by simp)
  · intro s now key recursive cond e hroot hpur h hp
    rw [rmDirOp_eq _ _ _ _ _ hroot, hpur] at h ⊢
    rcases hs : rmDirTx s key recursive cond with e' | ⟨s'', a⟩
    · simp only [hs, runTx_error] at h ⊢
      injection h with h
      subst h
      exact ⟨by rw [rmDirTx_error _ _ _ _ _ hs]; omega, by trivial⟩
    · simp only [hs, runTx_ok] at h
      exact absurd h (by simp)

theorem spec_C1_witness :
    (EtcdError.notFound ['/', 'k'] 0).errIndex = (((0 : Int) + 1) - 1) ∧
    (deleteOp ⟨[], [], 0⟩ 0 ['/', 'k'] .always).2 = ⟨[], [], 0⟩ :=
  spec_C1.2.1 ⟨[], [], 0⟩ 0 ['/', 'k'] .always (.notFound ['/', 'k'] 0)
    (by decide) (by decide) (by decide) trivial

/-! ### C2: the rows written by an overwrite -/

theorem find?_append_of_none {α : Type} (p : α → Bool) (l₁ l₂ : List α)
    (h : ∀ x ∈ l₁, p x = false) : (l₁ ++ l₂).find? p = l₂.find? p := by
  induction l₁ with
  | nil => rfl
  | cons a l ih =>
    have ha : p a = false := h a (by simp)
    simp only [List.cons_append, List.find?_cons, ha]
    exact ih (fun x hx => h x (by simp [hx]))

theorem getOne_congr (s₁ s₂ : Store) (key : List Char)
    (h : s₁.nodes = s₂.nodes) : getOne s₁ key = getOne s₂ key := by
  unfold getOne
  rw [h]

/-- `splitKey` maps the loop's stopping values to stopping values. -/
theorem stopKey_splitKey (key : List Char) (h : stopKey key) :
    stopKey (splitKey key) := by
  rcases h with rfl | rfl <;> decide

/-- A successful `mkdirs` only appends directory rows for ancestors of
`path` (keys no longer than `path`), leaving the existing rows, the
change table and the index untouched. -/
theorem mkdirsFuel_ok (fuel : Nat) (s : Store) (path : List Char) (i : Int)
    (s' : Store) (h : mkdirsFuel fuel s path i = .ok s') :
    s'.changes = s.changes ∧ s'.index = s.index ∧
    ∃ new : List NodeRow, s'.nodes = s.nodes ++ new ∧
      ∀ r ∈ new, r.key.length ≤ path.length ∧ ¬ stopKey path := by
  induction fuel generalizing s path with
  | zero =>
    simp only [mkdirsFuel] at h
    injection h with h
    subst h
    exact ⟨rfl, rfl, [], by simp, by simp⟩
  | succ fuel ih =>
    simp only [mkdirsFuel] at h
    split at h
    · injection h with h
      subst h
      exact ⟨rfl, rfl, [], by simp, by simp⟩
    · rename_i hstop
      split at h
      · split at h
        · injection h with h
          subst h
          exact ⟨rfl, rfl, [], by simp, by simp⟩
        · exact absurd h (by simp)
      · obtain ⟨hch, hix, new', hnodes, hlen⟩ := ih _ _ h
        have hsplit := splitKey_length_lt path hstop
        refine ⟨hch, hix,
          ({ key := path, created := i, modified := i, deleted := 0,
             value := "", dir := true, pathDepth := pathDepth path,
             expiration := none } : NodeRow) :: new', ?_, ?_⟩
        · rw [hnodes]
          simp
        · intro r hr
          rcases List.mem_cons.mp hr with rfl | hr
          · exact ⟨by simp, hstop⟩
          · obtain ⟨h1, -⟩ := hlen r hr
            exact ⟨by omega, hstop⟩

/-- A successful `setTx` returns the prior node read before the write,
a new node whose `created` and `modified` both equal the new index
(`createdIndex` is not preserved from the prior node), and tombstones
every previously live row for the key with `deleted = new index`. -/
theorem setTx_ok (s : Store) (now : Int) (key : List Char) (value : String)
    (dir : Bool) (ttl : Option Int) (cond : Cond) (s' : Store)
    (n p : Option Node) (hidx : 0 ≤ s.index)
    (h : setTx s now key value dir ttl cond = .ok (s', (n, p))) :
    p = getOne s key ∧
    n = some ⟨key, value, s.index + 1, s.index + 1, dir,
      ttl.map (fun t => now + t)⟩ ∧
    ∀ r ∈ s.nodes, r.deleted = 0 → r.key = key →
      { r with deleted := s.index + 1 } ∈ s'.nodes := by
  dsimp only [setTx] at h
  split at h
  · exact absurd h (by simp)
  · split at h
    · exact absurd h (by simp)
    · split at h
      · exact absurd h (by simp)
      · rename_i s₂ hmk
        rw [mkdirs] at hmk
        obtain ⟨hch, hix, new, hnodes, hlen⟩ := mkdirsFuel_ok _ _ _ _ _ hmk
        split at h
        · rename_i hsome
          simp only [Except.ok.injEq, Prod.mk.injEq] at h
          obtain ⟨hs', hn, hp⟩ := h
          refine ⟨hp.symm, ?_, ?_⟩
          · rw [← hn]
            unfold getOne
            rw [find?_append_of_none]
            · simp [insertRow, rowToNode]
            · intro x hx
              obtain ⟨y, hy, rfl⟩ := List.mem_map.mp hx
              split
              · rename_i hcond
                simp only [decide_eq_false_iff_not]
                rintro ⟨habs, -⟩
                have habs' : s.index + 1 = 0 := habs
                omega
              · rename_i hcond
                simpa using hcond
          · intro r hr hrdel hrkey
            rw [← hs']
            unfold recordChange
            refine List.mem_filter.mpr ⟨?_, ?_⟩
            · refine List.mem_append_left _ (List.mem_map.mpr ⟨r, ?_, ?_⟩)
              · rw [hnodes]
                exact List.mem_append_left _ hr
              · rw [if_pos ⟨hrdel, hrkey⟩]
            · simp only [decide_eq_true_eq, MaxChanges]
              omega
        · rename_i hnone
          simp only [Except.ok.injEq, Prod.mk.injEq] at h
          obtain ⟨hs', hn, hp⟩ := h
          have hfind :
              (s.nodes.find? (fun r => decide (r.deleted = 0 ∧ r.key = key))) =
                none := by
            by_contra hf
            rw [← Option.ne_none_iff_isSome] at hnone
            · exact hnone (by simpa [getOne] using hf)
          refine ⟨hp.symm, ?_, ?_⟩
          · rw [← hn]
            unfold getOne
            rw [hnodes, List.append_assoc, find?_append_of_none]
            · rw [find?_append_of_none]
              · simp [insertRow, rowToNode]
              · intro x hx
                obtain ⟨hxlen, hxstop⟩ := hlen x hx
                have hkstop : ¬ stopKey key :=
                  fun hk => hxstop (stopKey_splitKey key hk)
                have hklt := splitKey_length_lt key hkstop
                simp only [decide_eq_false_iff_not]
                rintro ⟨-, rfl⟩
                omega
            · intro x hx
              have := List.find?_eq_none.mp hfind x hx
              simpa using this
          · intro r hr hrdel hrkey
            exact absurd (List.find?_eq_none.mp hfind r hr)
              (by simp [hrdel, hrkey])

/-- Store after `Set("/k", "v1")` on an empty store. -/
def c2store1 : Store := (setOp ⟨[], [], 0⟩ 0 ['/', 'k'] "v1" false none .always).2

/-- Store after a further `Set("/k", "v2")`. -/
def c2store2 : Store := (setOp c2store1 0 ['/', 'k'] "v2" false none .always).2

/-- C2 counterexample: overwriting the leaf `/k` (created at index 1)
with `Set("/k","v2")` yields a live row with `created = 2`, not the
prior node's `createdIndex` 1 — `createdIndex` is *not* preserved across
overwrite (the prior row is tombstoned with `deleted = 2` as claimed,
but `insertQuery` writes `created = modified = new_index`). -/
theorem spec_C2_counterexample :
    (getOne c2store2 ['/', 'k']).map (·.createdIndex) = some 2 ∧
    (getOne c2store1 ['/', 'k']).map (·.createdIndex) = some 1 ∧
    ¬ (getOne c2store2 ['/', 'k']).map (·.createdIndex) =
        (getOne c2store1 ['/', 'k']).map (·.createdIndex) ∧
    ({ key := ['/', 'k'], created := 1, modified := 1, deleted := 2,
       value := "v1", dir := false, pathDepth := 1, expiration := none } :
      NodeRow) ∈ c2store2.nodes := by decide

/-- C2 (amended): on every successful `Set`/`SetTTL` the prior live rows
for the key are tombstoned with `deleted = new_index`, and the newly
written live row has `modified = new_index` and `created = new_index` —
whether or not a prior node existed (`createdIndex` is not preserved
across overwrite). -/
theorem spec_C2 (s : Store) (now : Int) (key : List Char) (value : String)
    (dir : Bool) (ttl : Option Int) (cond : Cond) (n p : Option Node)
    (s' : Store) (hroot : key ≠ ['/']) (hpur : purgeExpired s now = s)
    (hidx : 0 ≤ s.index)
    (h : setOp s now key value dir ttl cond = (.ok (n, p), s')) :
    p = getOne s key ∧
    n = some ⟨key, value, s.index + 1, s.index + 1, dir,
      ttl.map (fun t => now + t)⟩ ∧
    ∀ r ∈ s.nodes, r.deleted = 0 → r.key = key →
      { r with deleted := s.index + 1 } ∈ s'.nodes := by
  rw [setOp_eq _ _ _ _ _ _ _ hroot, hpur] at h
  rcases hs : setTx s now key value dir ttl cond with e | ⟨s'', n'', p''⟩
  · rw [hs, runTx_error, Prod.mk.injEq] at h
    exact absurd h.1 (by simp)
  · rw [hs, runTx_ok, Prod.mk.injEq, Except.ok.injEq, Prod.mk.injEq] at h
    obtain ⟨⟨hn, hp⟩, hsval⟩ := h
    subst hn hp hsval
    exact setTx_ok _ _ _ _ _ _ _ _ _ _ hidx hs

/-- A pre-state for the C2 witness: the live leaf `/k` = `"v1"` created
at index 1. -/
def c2wstore : Store :=
  ⟨[⟨['/', 'k'], 1, 1, 0, "v1", false, 1, none⟩], [], 1⟩

theorem spec_C2_witness :
    (some (⟨['/', 'k'], "v1", 1, 1, false, none⟩ : Node)) =
      getOne c2wstore ['/', 'k'] ∧
    (some (⟨['/', 'k'], "v2", 2, 2, false, none⟩ : Node)) =
      some ⟨['/', 'k'], "v2", c2wstore.index + 1, c2wstore.index + 1, false,
        Option.map (fun t => 0 + t) none⟩ ∧
    (∀ r ∈ c2wstore.nodes, r.deleted = 0 → r.key = ['/', 'k'] →
      { r with deleted := c2wstore.index + 1 } ∈
        (setOp c2wstore 0 ['/', 'k'] "v2" false none Cond.always).2.nodes) :=
  spec_C2 c2wstore 0 ['/', 'k'] "v2" false none Cond.always
    (some ⟨['/', 'k'], "v2", 2, 2, false, none⟩)
    (some ⟨['/', 'k'], "v1", 1, 1, false, none⟩)
    ((setOp c2wstore 0 ['/', 'k'] "v2" false none Cond.always).2)
    (by decide) (by decide) (by decide) (by decide)

/-! ### C5: non-recursive RmDir -/

theorem one_lt_length_of_mem_mem {α : Type} {a b : α} {l : List α}
    (ha : a ∈ l) (hb : b ∈ l) (hab : a ≠ b) : 1 < l.length := by
  rcases l with _ | ⟨x, xs⟩
  · simp at ha
  · rcases List.mem_cons.mp ha with rfl | ha'
    · rcases List.mem_cons.mp hb with rfl | hb'
      · exact absurd rfl hab
      · have := List.length_pos.mpr (List.ne_nil_of_mem hb')
        simp only [List.length_cons]
        omega
    · have := List.length_pos.mpr (List.ne_nil_of_mem ha')
      simp only [List.length_cons]
      omega

/-- `RmDir(key, recursive = false)` on a node with a live descendant
fails `DirectoryNotEmpty` with the previous index (the `UPDATE`
affected more than one row). -/
theorem rmDirTx_notEmpty (s : Store) (key : List Char) (cond : DeleteCond)
    (node : Node) (hget : getOne s key = some node)
    (hcheck : cond.check key s.index (some node) = none)
    (hdesc : ∃ r ∈ s.nodes, r.deleted = 0 ∧ likeSlash key r.key = true) :
    rmDirTx s key false cond = .error (.directoryNotEmpty key s.index) := by
  dsimp only [rmDirTx]
  have hg : getOne ⟨s.nodes, s.changes, s.index + 1⟩ key = getOne s key :=
    getOne_congr _ _ _ rfl
  rw [hg, hget]
  have harith : s.index + 1 - 1 = s.index := by omega
  rw [harith]
  simp only [hcheck]
  obtain ⟨r, hrmem, hrdel, hrlike⟩ := hdesc
  obtain ⟨r₀, hr₀mem, hr₀pred⟩ :
      ∃ r₀ ∈ s.nodes,
        (fun r => decide (r.deleted = 0 ∧ r.key = key)) r₀ = true := by
    unfold getOne at hget
    rcases hf : s.nodes.find? (fun r => decide (r.deleted = 0 ∧ r.key = key))
      with _ | r₀
    · rw [hf] at hget
      exact absurd hget (by simp)
    · have h1 := List.find?_some hf
      exact ⟨r₀, List.mem_of_find?_eq_some hf, h1⟩
  simp only [decide_eq_true_eq] at hr₀pred
  obtain ⟨hr₀del, hr₀key⟩ := hr₀pred
  have hrkeylen : key.length + 1 ≤ r.key.length := by
    have : (key ++ ['/']) <+: r.key := by
      rw [← List.isPrefixOf_iff_prefix]
      exact hrlike
    have := this.length_le
    simpa using this
  have hrne : r ≠ r₀ := by
    intro hcon
    rw [hcon, hr₀key] at hrkeylen
    omega
  have hrfil : r ∈ s.nodes.filter
      (fun r => decide (r.deleted = 0 ∧ subtreeMatch key r.key)) := by
    refine List.mem_filter.mpr ⟨hrmem, ?_⟩
    simp [subtreeMatch, hrdel, hrlike]
  have hr₀fil : r₀ ∈ s.nodes.filter
      (fun r => decide (r.deleted = 0 ∧ subtreeMatch key r.key)) := by
    refine List.mem_filter.mpr ⟨hr₀mem, ?_⟩
    simp [subtreeMatch, hr₀del, hr₀key]
  have hcount := one_lt_length_of_mem_mem hrfil hr₀fil hrne
  rw [if_pos ⟨by simp, hcount⟩]

/-- `RmDir(key, recursive = false)` on a live node with no live
descendant succeeds (the `UPDATE` affected exactly one row), whether or
not the node is a directory. -/
theorem rmDirTx_leaf_ok (s : Store) (key : List Char) (cond : DeleteCond)
    (node : Node) (hget : getOne s key = some node)
    (hcheck : cond.check key s.index (some node) = none)
    (hcount : (s.nodes.filter
      (fun r => decide (r.deleted = 0 ∧ subtreeMatch key r.key))).length = 1) :
    ∃ s', rmDirTx s key false cond = .ok (s', (node, s.index + 1)) := by
  dsimp only [rmDirTx]
  have hg : getOne ⟨s.nodes, s.changes, s.index + 1⟩ key = getOne s key :=
    getOne_congr _ _ _ rfl
  rw [hg, hget]
  have harith : s.index + 1 - 1 = s.index := by omega
  rw [harith]
  simp only [hcheck]
  rw [if_neg (by rintro ⟨-, hgt⟩; rw [hcount] at hgt; omega)]
  exact ⟨_, rfl⟩

/-- C5: `RmDir(key, recursive = false, cond)` on a live node with at
least one live descendant fails `DirectoryNotEmpty` carrying the
previous index and rolls back (no tombstone, no change row, index
unchanged); on a live node with no live descendants it succeeds with
the new index, even when the node is a leaf rather than a directory. -/
theorem spec_C5 (s : Store) (now : Int) (key : List Char)
    (cond : DeleteCond) (node : Node) (hroot : key ≠ ['/'])
    (hpur : purgeExpired s now = s) (hget : getOne s key = some node)
    (hcheck : cond.check key s.index (some node) = none) :
    ((∃ r ∈ s.nodes, r.deleted = 0 ∧ likeSlash key r.key = true) →
      rmDirOp s now key false cond =
        (.error (.directoryNotEmpty key s.index), s)) ∧
    ((s.nodes.filter
        (fun r => decide (r.deleted = 0 ∧ subtreeMatch key r.key))).length = 1 →
      node.dir = false →
      (rmDirOp s now key false cond).1 = .ok (node, s.index + 1)) := by
  constructor
  · intro hdesc
    rw [rmDirOp_eq _ _ _ _ _ hroot, hpur,
      rmDirTx_notEmpty s key cond node hget hcheck hdesc, runTx_error]
  · intro hcount hleaf
    obtain ⟨s', hs'⟩ := rmDirTx_leaf_ok s key cond node hget hcheck hcount
    rw [rmDirOp_eq _ _ _ _ _ hroot, hpur, hs', runTx_ok]

/-- Store for the C5 witness: directory `/d` with the one live leaf
`/d/x` below it. -/
def c5store : Store :=
  ⟨[⟨['/', 'd'], 1, 1, 0, "", true, 1, none⟩,
    ⟨['/', 'd', '/', 'x'], 2, 2, 0, "1", false, 2, none⟩], [], 2⟩

theorem spec_C5_witness :
    ((∃ r ∈ c5store.nodes, r.deleted = 0 ∧ likeSlash ['/', 'd'] r.key = true) →
      rmDirOp c5store 0 ['/', 'd'] false .always =
        (.error (.directoryNotEmpty ['/', 'd'] c5store.index), c5store)) ∧
    ((c5store.nodes.filter
        (fun r => decide (r.deleted = 0 ∧ subtreeMatch ['/', 'd'] r.key))).length = 1 →
      (⟨['/', 'd'], "", 1, 1, true, none⟩ : Node).dir = false →
      (rmDirOp c5store 0 ['/', 'd'] false .always).1 =
        .ok (⟨['/', 'd'], "", 1, 1, true, none⟩, c5store.index + 1)) :=
  spec_C5 c5store 0 ['/', 'd'] .always ⟨['/', 'd'], "", 1, 1, true, none⟩
    (by decide) (by decide) (by decide) (by decide)

/-! ### C7: pruning of changes and tombstones -/

/-- After `recordChange` at index `I` on a store whose change indices
are distinct and at most `I - 1`, the changes table holds at most
`MaxChanges + 1` rows (the surviving indices lie in
`[I - MaxChanges, I]`), and every tombstone older than
`I - MaxChanges` has been removed. -/
theorem recordChange_bound (s : Store) (I : Int) (a : String)
    (k : List Char) (p : Option Node)
    (hn : (s.changes.map (·.index)).Nodup)
    (hle : ∀ c ∈ s.changes, c.index ≤ I - 1) :
    (((recordChange s I a k p).changes.length : Int) ≤ MaxChanges + 1) ∧
    ∀ r ∈ (recordChange s I a k p).nodes,
      ¬ (0 < r.deleted ∧ r.deleted < I - MaxChanges) := by
  constructor
  · unfold recordChange
    rw [List.filter_append, List.length_append]
    have hsub : ((s.changes.filter
          (fun c => decide (¬ c.index < I - MaxChanges))).map (·.index)).Sublist
        (s.changes.map (·.index)) :=
      (List.filter_sublist _).map _
    have hnod := hn.sublist hsub
    have hsubset : ((s.changes.filter
          (fun c => decide (¬ c.index < I - MaxChanges))).map (·.index)).toFinset ⊆
        Finset.Icc (I - MaxChanges) (I - 1) := by
      intro x hx
      obtain ⟨c, hc, rfl⟩ := List.mem_map.mp (List.mem_toFinset.mp hx)
      obtain ⟨hcmem, hcq⟩ := List.mem_filter.mp hc
      rw [Finset.mem_Icc]
      have h1 := hle c hcmem
      have h2 : ¬ c.index < I - MaxChanges := by simpa using hcq
      omega
    have hcard := Finset.card_le_card hsubset
    rw [List.toFinset_card_of_nodup hnod, List.length_map, Int.card_Icc] at hcard
    have htn : (I - 1 + 1 - (I - MaxChanges)).toNat = 1000 := by
      simp only [MaxChanges]
      omega
    rw [htn] at hcard
    have hone := List.length_filter_le
      (fun c => decide (¬ c.index < I - MaxChanges))
      [ChangeRow.mk I k a (p.map (·.modifiedIndex))]
    simp only [List.length_cons, List.length_nil] at hone
    have hmc : MaxChanges = 1000 := rfl
    push_cast
    omega
  · intro r hr
    obtain ⟨-, hq⟩ := List.mem_filter.mp hr
    rw [decide_eq_true_eq] at hq
    exact hq

/-- Every successful `setTx` commits a store produced by `recordChange`
at the new index, from an intermediate store with the original change
table. -/
theorem setTx_ok_shape (s : Store) (now : Int) (key : List Char)
    (value : String) (dir : Bool) (ttl : Option Int) (cond : Cond)
    (s' : Store) (a : Option Node × Option Node)
    (h : setTx s now key value dir ttl cond = .ok (s', a)) :
    ∃ (S : Store) (act : String) (kk : List Char) (p : Option Node),
      S.changes = s.changes ∧
      s' = recordChange S (s.index + 1) act kk p := by
  dsimp only [setTx] at h
  split at h
  · exact absurd h (by simp)
  · split at h
    · exact absurd h (by simp)
    · split at h
      · exact absurd h (by simp)
      · rename_i s₂ hmk
        rw [mkdirs] at hmk
        obtain ⟨hch, -, -⟩ := mkdirsFuel_ok _ _ _ _ _ hmk
        split at h
        all_goals
          simp only [Except.ok.injEq, Prod.mk.injEq] at h
          obtain ⟨hs', -⟩ := h
          refine ⟨_, _, _, _, ?_, hs'.symm⟩
          exact hch

/-- Every successful `deleteTx` commits a store produced by
`recordChange` at the new index from a store with the original change
table. -/
theorem deleteTx_ok_shape (s : Store) (key : List Char)
    (cond : DeleteCond) (s' : Store) (a : Node × Int)
    (h : deleteTx s key cond = .ok (s', a)) :
    ∃ (S : Store) (act : String) (kk : List Char) (p : Option Node),
      S.changes = s.changes ∧
      s' = recordChange S (s.index + 1) act kk p := by
  dsimp only [deleteTx] at h
  split at h
  · exact absurd h (by simp)
  · split at h
    · exact absurd h (by simp)
    · split at h
      · exact absurd h (by simp)
      · simp only [Except.ok.injEq, Prod.mk.injEq] at h
        obtain ⟨hs', -⟩ := h
        refine ⟨_, _, _, _, ?_, hs'.symm⟩
        rfl

/-- Every successful `rmDirTx` commits a store produced by
`recordChange` at the new index from a store with the original change
table. -/
theorem rmDirTx_ok_shape (s : Store) (key : List Char) (recursive : Bool)
    (cond : DeleteCond) (s' : Store) (a : Node × Int)
    (h : rmDirTx s key recursive cond = .ok (s', a)) :
    ∃ (S : Store) (act : String) (kk : List Char) (p : Option Node),
      S.changes = s.changes ∧
      s' = recordChange S (s.index + 1) act kk p := by
  dsimp only [rmDirTx] at h
  split at h
  · exact absurd h (by simp)
  · split at h
    · exact absurd h (by simp)
    · split at h
      · exact absurd h (by simp)
      · simp only [Except.ok.injEq, Prod.mk.injEq] at h
        obtain ⟨hs', -⟩ := h
        refine ⟨_, _, _, _, ?_, hs'.symm⟩
        rfl

/-- A store holding `MaxChanges + 1` change rows at consecutive
indices 1..1001 and the global index 1001. -/
def c7store : Store :=
  ⟨[], (List.range 1001).map
    (fun i => ChangeRow.mk ((i : Int) + 1) ['/', 'c'] "set" none), 1001⟩

set_option maxRecDepth 10000 in
/-- C7 counterexample: after the successful mutation
`Set("/k", "v")` at index 1002 on `c7store`, the changes table holds
1001 rows — one more than `MaxChanges` — because the prune deletes only
`index < I − MaxChanges`, keeping the `MaxChanges + 1` indices
`I − MaxChanges … I`. -/
theorem spec_C7_counterexample :
    MaxChanges <
      ((setOp c7store 0 ['/', 'k'] "v" false none .always).2.changes.length : Int) ∧
    (setOp c7store 0 ['/', 'k'] "v" false none .always).1 =
      .ok (some ⟨['/', 'k'], "v", 1002, 1002, false, none⟩, none) := by decide

/-- C7 (amended): after every successful mutation recording a change at
index `I = s.index + 1` — `Set`/`SetTTL`/`MkDir`, `Delete`, `RmDir` or
`CreateInOrder` — on a store with distinct change indices bounded by the
global index, the changes table holds at most `MaxChanges + 1` rows
(not `MaxChanges`: the prune keeps indices `I − MaxChanges … I`), and
every tombstoned node row with `deleted < I − MaxChanges` has been
removed. -/
theorem spec_C7 :
    (∀ s now key value dir ttl cond r s', key ≠ ['/'] →
      purgeExpired s now = s → (s.changes.map (·.index)).Nodup →
      (∀ c ∈ s.changes, c.index ≤ s.index) →
      setOp s now key value dir ttl cond = (.ok r, s') →
      ((s'.changes.length : Int) ≤ MaxChanges + 1) ∧
        ∀ rr ∈ s'.nodes,
          ¬ (0 < rr.deleted ∧ rr.deleted < s.index + 1 - MaxChanges)) ∧
    (∀ s now key cond r s', key ≠ ['/'] →
      purgeExpired s now = s → (s.changes.map (·.index)).Nodup →
      (∀ c ∈ s.changes, c.index ≤ s.index) →
      deleteOp s now key cond = (.ok r, s') →
      ((s'.changes.length : Int) ≤ MaxChanges + 1) ∧
        ∀ rr ∈ s'.nodes,
          ¬ (0 < rr.deleted ∧ rr.deleted < s.index + 1 - MaxChanges)) ∧
    (∀ s now key recursive cond r s', key ≠ ['/'] →
      purgeExpired s now = s → (s.changes.map (·.index)).Nodup →
      (∀ c ∈ s.changes, c.index ≤ s.index) →
      rmDirOp s now key recursive cond = (.ok r, s') →
      ((s'.changes.length : Int) ≤ MaxChanges + 1) ∧
        ∀ rr ∈ s'.nodes,
          ¬ (0 < rr.deleted ∧ rr.deleted < s.index + 1 - MaxChanges)) ∧
    (∀ s now key value ttl,
      purgeExpired s now = s → (s.changes.map (·.index)).Nodup →
      (∀ c ∈ s.changes, c.index ≤ s.index) →
      (((createInOrderOp s now key value ttl).2.changes.length : Int) ≤
          MaxChanges + 1) ∧
        ∀ rr ∈ (createInOrderOp s now key value ttl).2.nodes,
          ¬ (0 < rr.deleted ∧ rr.deleted < s.index + 1 - MaxChanges)) := by
  refine ⟨?_, ?_, ?_, ?_⟩
  · intro s now key value dir ttl cond r s' hroot hpur hn hle h
    rw [setOp_eq _ _ _ _ _ _ _ hroot, hpur] at h
    rcases hs : setTx s now key value dir ttl cond with e | ⟨s'', a⟩
    · rw [hs, runTx_error, Prod.mk.injEq] at h
      exact absurd h.1 (by simp)
    · rw [hs, runTx_ok, Prod.mk.injEq] at h
      obtain ⟨-, hseq⟩ := h
      subst hseq
      obtain ⟨S, act, kk, p, hch, hrec⟩ := setTx_ok_shape _ _ _ _ _ _ _ _ _ hs
      rw [hrec]
      exact recordChange_bound S (s.index + 1) act kk p
        (by rw [hch]; exact hn)
        (fun c hc => by rw [hch] at hc; have := hle c hc; omega)
  · intro s now key cond r s' hroot hpur hn hle h
    rw [deleteOp_eq _ _ _ _ hroot, hpur] at h
    rcases hs : deleteTx s key cond with e | ⟨s'', a⟩
    · rw [hs, runTx_error, Prod.mk.injEq] at h
      exact absurd h.1 (by simp)
    · rw [hs, runTx_ok, Prod.mk.injEq] at h
      obtain ⟨-, hseq⟩ := h
      subst hseq
      obtain ⟨S, act, kk, p, hch, hrec⟩ := deleteTx_ok_shape _ _ _ _ _ hs
      rw [hrec]
      exact recordChange_bound S (s.index + 1) act kk p
        (by rw [hch]; exact hn)
        (fun c hc => by rw [hch] at hc; have := hle c hc; omega)
  · intro s now key recursive cond r s' hroot hpur hn hle h
    rw [rmDirOp_eq _ _ _ _ _ hroot, hpur] at h
    rcases hs : rmDirTx s key recursive cond with e | ⟨s'', a⟩
    · rw [hs, runTx_error, Prod.mk.injEq] at h
      exact absurd h.1 (by simp)
    · rw [hs, runTx_ok, Prod.mk.injEq] at h
      obtain ⟨-, hseq⟩ := h
      subst hseq
      obtain ⟨S, act, kk, p, hch, hrec⟩ := rmDirTx_ok_shape _ _ _ _ _ _ hs
      rw [hrec]
      exact recordChange_bound S (s.index + 1) act kk p
        (by rw [hch]; exact hn)
        (fun c hc => by rw [hch] at hc; have := hle c hc; omega)
  · intro s now key value ttl hpur hn hle
    dsimp only [createInOrderOp]
    rw [hpur]
    exact recordChange_bound _ (s.index + 1) _ _ _ hn
      (fun c hc => by have := hle c hc; omega)

theorem spec_C7_witness :
    (((deleteOp c2wstore 0 ['/', 'k'] .always).2.changes.length : Int) ≤
        MaxChanges + 1) ∧
    ∀ rr ∈ (deleteOp c2wstore 0 ['/', 'k'] .always).2.nodes,
      ¬ (0 < rr.deleted ∧ rr.deleted < c2wstore.index + 1 - MaxChanges) :=
  spec_C7.2.1 c2wstore 0 ['/', 'k'] .always
    (⟨['/', 'k'], "v1", 1, 1, false, none⟩, 2)
    ((deleteOp c2wstore 0 ['/', 'k'] .always).2)
    (by decide) (by decide) (by decide) (by decide) (by decide)

/-! ### C3: the expiration sweep -/

/-- A change row whose index is within the pruning window survives
`recordChange`. -/
theorem recordChange_mem_changes (s : Store) (I : Int) (a : String)
    (k : List Char) (p : Option Node) (c : ChangeRow) (hc : c ∈ s.changes)
    (hge : I - MaxChanges ≤ c.index) :
    c ∈ (recordChange s I a k p).changes := by
  unfold recordChange
  refine List.mem_filter.mpr ⟨List.mem_append_left _ hc, ?_⟩
  simp only [decide_eq_true_eq]
  omega

/-- A node row that is live or tombstoned within the pruning window
survives `recordChange`. -/
theorem recordChange_mem_nodes (s : Store) (I : Int) (a : String)
    (k : List Char) (p : Option Node) (r : NodeRow) (hr : r ∈ s.nodes)
    (hkeep : ¬ (0 < r.deleted ∧ r.deleted < I - MaxChanges)) :
    r ∈ (recordChange s I a k p).nodes := by
  unfold recordChange
  refine List.mem_filter.mpr ⟨hr, ?_⟩
  rw [decide_eq_true_eq]
  exact hkeep

/-- The sweep loop consumes one index per expired node: the returned
running index is the starting index plus the number of nodes. -/
theorem purgeLoop_index (L : List NodeRow) (s : Store) (I : Int) :
    (purgeLoop s L I).2 = I + L.length := by
  induction L generalizing s I with
  | nil => simp [purgeLoop]
  | cons n rest ih =>
    simp only [purgeLoop]
    rw [ih]
    simp only [List.length_cons]
    push_cast
    ring

/-- A change row whose index is at least the final pruning threshold
survives the whole sweep loop. -/
theorem purgeLoop_changes_mem (L : List NodeRow) (s : Store) (I : Int)
    (c : ChangeRow) (hc : c ∈ s.changes)
    (hge : I + L.length - 1 - MaxChanges ≤ c.index) :
    c ∈ (purgeLoop s L I).1.changes := by
  induction L generalizing s I with
  | nil => simpa [purgeLoop] using hc
  | cons n rest ih =>
    simp only [purgeLoop]
    apply ih
    · exact recordChange_mem_changes s I "expire" n.key (some (rowToNode n)) c hc
        (by simp only [List.length_cons] at hge; push_cast at hge; omega)
    · simp only [List.length_cons] at hge
      push_cast at hge ⊢
      omega

/-- A node row already tombstoned, with `deleted` at least the final
pruning threshold, survives the whole sweep loop untouched. -/
theorem purgeLoop_nodes_mem (L : List NodeRow) (s : Store) (I : Int)
    (r : NodeRow) (hr : r ∈ s.nodes) (hrdel : r.deleted ≠ 0)
    (hge : I + L.length - 1 - MaxChanges ≤ r.deleted) :
    r ∈ (purgeLoop s L I).1.nodes := by
  induction L generalizing s I with
  | nil => simpa [purgeLoop] using hr
  | cons n rest ih =>
    simp only [purgeLoop]
    apply ih
    · refine List.mem_map.mpr ⟨r, ?_, ?_⟩
      · exact recordChange_mem_nodes s I "expire" n.key (some (rowToNode n)) r hr
          (by
            simp only [List.length_cons] at hge
            push_cast at hge
            intro hcon
            omega)
      · rw [if_neg (fun hcon => hrdel hcon.1)]
    · simp only [List.length_cons] at hge
      push_cast at hge ⊢
      omega

/-- The `expire` change recorded for the `k`-th expired node carries the
index `I + k` and survives the rest of the sweep (when at most
`MaxChanges` nodes expire). -/
theorem purgeLoop_change_at (L : List NodeRow) (s : Store) (I : Int)
    (hn : (L.length : Int) ≤ MaxChanges) (k : Nat) (hk : k < L.length) :
    ChangeRow.mk (I + k) (L.get ⟨k, hk⟩).key "expire"
      (some (L.get ⟨k, hk⟩).modified) ∈ (purgeLoop s L I).1.changes := by
  induction L generalizing s I k with
  | nil => simp at hk
  | cons n rest ih =>
    simp only [purgeLoop]
    cases k with
    | zero =>
      apply purgeLoop_changes_mem
      · have h0 := recordChange_new_mem s I "expire" n.key (some (rowToNode n))
        have harith : I + ((0 : Nat) : Int) = I := by push_cast; ring
        rw [harith]
        exact h0
      · simp only [List.length_cons] at hn
        push_cast at hn ⊢
        omega
    | succ k =>
      have hk' : k < rest.length := by
        simpa using Nat.lt_of_succ_lt_succ (by simpa using hk)
      have hn' : (rest.length : Int) ≤ MaxChanges := by
        simp only [List.length_cons] at hn
        push_cast at hn ⊢
        omega
      have harith : I + ((k + 1 : Nat) : Int) = I + 1 + (k : Nat) := by
        push_cast
        ring
      rw [show ((n :: rest).get ⟨k + 1, hk⟩) = rest.get ⟨k, hk'⟩ from rfl, harith]
      exact ih _ (I + 1) hn' k hk'

/-- A row live at the start of the sweep and covered by the `k`-th
expired node's subtree — but by no other expired node's — ends the sweep
tombstoned with `deleted = I + k`. -/
theorem purgeLoop_tombstone (L : List NodeRow) (s : Store) (I : Int)
    (hn : (L.length : Int) ≤ MaxChanges) (hI : 0 < I) (r : NodeRow)
    (hr : r ∈ s.nodes) (hrdel : r.deleted = 0) (k : Nat)
    (hk : k < L.length)
    (hcov : subtreeMatch (L.get ⟨k, hk⟩).key r.key = true)
    (hnocov : ∀ (j : Nat) (hj : j < L.length), j ≠ k →
      subtreeMatch (L.get ⟨j, hj⟩).key r.key = false) :
    { r with deleted := I + k } ∈ (purgeLoop s L I).1.nodes := by
  induction L generalizing s I k with
  | nil => simp at hk
  | cons n rest ih =>
    simp only [purgeLoop]
    cases k with
    | zero =>
      apply purgeLoop_nodes_mem
      · refine List.mem_map.mpr ⟨r, ?_, ?_⟩
        · exact recordChange_mem_nodes s I "expire" n.key (some (rowToNode n))
            r hr (fun hcon => by omega)
        · have hcov0 : subtreeMatch n.key r.key = true := hcov
          rw [if_pos ⟨hrdel, hcov0⟩]
          have harith : I + ((0 : Nat) : Int) = I := by push_cast; ring
          rw [harith]
      · have harith : I + ((0 : Nat) : Int) = I := by push_cast; ring
        rw [harith]
        show I ≠ 0
        omega
      · have harith : I + ((0 : Nat) : Int) = I := by push_cast; ring
        rw [harith]
        show I + 1 + ((rest.length : Nat) : Int) - 1 - MaxChanges ≤ I
        simp only [List.length_cons] at hn
        push_cast at hn
        omega
    | succ k =>
      have hk' : k < rest.length := by
        simpa using Nat.lt_of_succ_lt_succ (by simpa using hk)
      have hhead : subtreeMatch n.key r.key = false := by
        have := hnocov 0 (by simp) (by omega)
        exact this
      have hn' : (rest.length : Int) ≤ MaxChanges := by
        simp only [List.length_cons] at hn
        push_cast at hn ⊢
        omega
      have hmem2 : r ∈ (List.map (fun rr =>
          if rr.deleted = 0 ∧ subtreeMatch n.key rr.key = true then
            { rr with deleted := I }
          else rr)
          (recordChange s I "expire" n.key (some (rowToNode n))).nodes) := by
        refine List.mem_map.mpr ⟨r, ?_, ?_⟩
        · exact recordChange_mem_nodes s I "expire" n.key (some (rowToNode n))
            r hr (fun hcon => by omega)
        · rw [if_neg (fun hcon => by rw [hhead] at hcon; exact absurd hcon.2 (by simp))]
      have harith : I + ((k + 1 : Nat) : Int) = I + 1 + (k : Nat) := by
        push_cast
        ring
      rw [harith]
      exact ih _ (I + 1) hn' (by omega) hmem2 k hk' hcov
        (fun j hj hjk => hnocov (j + 1) (by simpa using Nat.succ_lt_succ hj)
          (fun hcon => hjk (Nat.succ_injective hcon)))

/-- When some node has expired, `purgeExpired` runs the sweep loop on the
sorted expired list, starting at the reserved index `s.index + 1`, and
stores the last consumed index. -/
theorem purgeExpired_of_ne (s : Store) (now : Int) (L : List NodeRow)
    (hL : expiredNodes s now = L) (hne : L ≠ []) :
    purgeExpired s now =
      { (purgeLoop { s with index := s.index + 1 } L (s.index + 1)).1 with
        index :=
          (purgeLoop { s with index := s.index + 1 } L (s.index + 1)).2 - 1 } := by
  have hL' : expiredNodes { s with index := s.index + 1 } now = L := hL
  have hfalse : L.isEmpty = false := by
    cases L with
    | nil => exact absurd rfl hne
    | cons a t => rfl
  dsimp only [purgeExpired]
  rw [hL', hfalse]
  rfl

/-- A store holding an expired directory `/a` (expiration 1) and an
expired child `/a/b` (expiration 2), at global index 2. -/
def c3store : Store :=
  ⟨[⟨['/', 'a'], 1, 1, 0, "", true, 1, some 1⟩,
    ⟨['/', 'a', '/', 'b'], 2, 2, 0, "v", false, 2, some 2⟩], [], 2⟩

/-- Sweeping `c3store` at `now = 3` refutes the claim that each expiring
node is tombstoned with its own assigned index: `/a/b` is the second
expired node, assigned index 4 (its `expire` change row carries index 4),
but its row was already tombstoned with `deleted = 3` while processing
the ancestor `/a` (the tombstone `UPDATE` only touches rows with
`deleted = 0`), and no row for `/a/b` ends with `deleted = 4`. -/
theorem spec_C3_counterexample :
    (expiredNodes c3store 3).map (fun r => r.key) =
      [['/', 'a'], ['/', 'a', '/', 'b']] ∧
    (purgeExpired c3store 3).index = 4 ∧
    ChangeRow.mk 4 ['/', 'a', '/', 'b'] "expire" (some 2) ∈
      (purgeExpired c3store 3).changes ∧
    NodeRow.mk ['/', 'a', '/', 'b'] 2 2 3 "v" false 2 (some 2) ∈
      (purgeExpired c3store 3).nodes ∧
    ∀ r ∈ (purgeExpired c3store 3).nodes,
      ¬ (r.key = ['/', 'a', '/', 'b'] ∧ r.deleted = 4) := by
  decide

/-- C3: when the sweeper finds `n ≥ 1` expired live nodes (at most
`MaxChanges` of them, from a nonnegative index), it assigns them the
consecutive indices `s.index + 1, …, s.index + n` in expiration order,
records an `expire` change row at each node's assigned index, and sets
the global index to the last consumed value `s.index + n`; a row that
was live at the start of the sweep and lies in the subtree of exactly
one expired node is tombstoned with that node's assigned index.  (The
claim's unconditional form — every expiring node and its descendants get
`deleted` equal to that node's own index — is refuted by
the nested-expiration counterexample: a descendant processed after an
expired ancestor is already tombstoned and keeps the earlier index.) -/
theorem spec_C3 (s : Store) (now : Int) (L : List NodeRow)
    (hL : expiredNodes s now = L) (hidx : 0 ≤ s.index) (hne : L ≠ [])
    (hn : (L.length : Int) ≤ MaxChanges) :
    (purgeExpired s now).index = s.index + L.length ∧
    (∀ (k : Nat) (hk : k < L.length),
      ChangeRow.mk (s.index + 1 + k) (L.get ⟨k, hk⟩).key "expire"
        (some (L.get ⟨k, hk⟩).modified) ∈ (purgeExpired s now).changes) ∧
    (∀ r ∈ s.nodes, r.deleted = 0 →
      ∀ (k : Nat) (hk : k < L.length),
        subtreeMatch (L.get ⟨k, hk⟩).key r.key = true →
        (∀ (j : Nat) (hj : j < L.length), j ≠ k →
          subtreeMatch (L.get ⟨j, hj⟩).key r.key = false) →
        { r with deleted := s.index + 1 + k } ∈ (purgeExpired s now).nodes) := by
  have hpe := purgeExpired_of_ne s now L hL hne
  refine ⟨?_, ?_, ?_⟩
  · rw [hpe]
    show (purgeLoop { s with index := s.index + 1 } L (s.index + 1)).2 - 1 =
      s.index + L.length
    rw [purgeLoop_index]
    ring
  · intro k hk
    rw [hpe]
    show ChangeRow.mk (s.index + 1 + k) (L.get ⟨k, hk⟩).key "expire"
        (some (L.get ⟨k, hk⟩).modified) ∈
      (purgeLoop { s with index := s.index + 1 } L (s.index + 1)).1.changes
    exact purgeLoop_change_at L _ (s.index + 1) hn k hk
  · intro r hr hrdel k hk hcov hnocov
    rw [hpe]
    show { r with deleted := s.index + 1 + k } ∈
      (purgeLoop { s with index := s.index + 1 } L (s.index + 1)).1.nodes
    exact purgeLoop_tombstone L { s with index := s.index + 1 } (s.index + 1)
      hn (by omega) r hr hrdel k hk hcov hnocov

/-- A store holding a single expired leaf `/k` at global index 1. -/
def c3wstore : Store :=
  ⟨[⟨['/', 'k'], 1, 1, 0, "v", false, 1, some 1⟩], [], 1⟩

/-- Sweeping the single expired leaf `/k` at `now = 2`: the final index
is 2, the `expire` change row carries index 2, and the row is tombstoned
with `deleted = 2`. -/
theorem spec_C3_witness :
    expiredNodes c3wstore 2 = [NodeRow.mk ['/', 'k'] 1 1 0 "v" false 1 (some 1)] ∧
    (purgeExpired c3wstore 2).index = 2 ∧
    ChangeRow.mk 2 ['/', 'k'] "expire" (some 1) ∈
      (purgeExpired c3wstore 2).changes ∧
    NodeRow.mk ['/', 'k'] 1 1 2 "v" false 1 (some 1) ∈
      (purgeExpired c3wstore 2).nodes := by
  have h := spec_C3 c3wstore 2 [NodeRow.mk ['/', 'k'] 1 1 0 "v" false 1 (some 1)]
    (by decide) (by decide) (by decide) (by decide)
  refine ⟨by decide, h.1.trans (by decide), ?_, ?_⟩
  · exact h.2.1 0 (by decide)
  · exact h.2.2 (NodeRow.mk ['/', 'k'] 1 1 0 "v" false 1 (some 1))
      (by decide) (by decide) 0 (by decide) (by decide)
      (fun j hj hjk => absurd (Nat.lt_one_iff.mp (by simpa using hj)) hjk)

end Etcdb
